import Mathlib

/-!
Verification of the core elaboration engine of the mm0 proof assistant
front end (the `mm0-rs` elaborator). The Lean definitions below are a
shallow embedding of the Rust sources:

* `src/mm0-rs/src/elab/environment.rs` (environment tables, `add_sort`,
  `add_term`, the coercion graph `add_coe`),
* `src/mm0-rs/src/elab/proof.rs` (the proof compacter: `Dedup`,
  `ExprHash`/`ProofHash`, `subst`, `build`),
* `src/mm0-rs/src/elab/lisp/eval.rs` (a fragment of the tactic
  evaluator state machine).

Machine integers are modelled as `Nat` with explicit bounds where the
Rust code can overflow; Rust `panic` sites are modelled by `Option`
(with `none` meaning a panic); fallible operations return `Except`.
Rust `HashMap`s are modelled by association lists (a deterministic
refinement of the unspecified iteration order; where a result depends
on iteration order this is noted at the use site).
-/

namespace MM0

/-- A file span. In the source this is a file reference plus a byte range;
only equality and propagation matter here, so it is modelled as a file
identifier and a pair of offsets. -/
structure FileSpan where
  file : Nat
  span : Nat × Nat
deriving DecidableEq, Repr

/-- A span inside the current file (`Span` in the source). -/
abbrev Span := Nat × Nat

/-- Sort modifier bitsets (`Modifiers` in `parser/ast.rs`, not under `src/`);
only equality on the bitset is used by the embedded operations, so the
bitset is a bare `Nat`. -/
abbrev Modifiers := Nat

/-- `DeclKey` from `environment.rs`: a term or theorem ID. IDs are `Nat`. -/
inductive DeclKey where
  | term (t : Nat)
  | thm (t : Nat)
deriving DecidableEq, Repr

/-- `Sort` from `environment.rs` (named `Sort'` because `Sort` is a Lean
keyword). -/
structure Sort' where
  atom : Nat
  name : String
  span : FileSpan
  full : Span
  mods : Modifiers
deriving DecidableEq, Repr

/-- `Type` from `environment.rs` (named `Type'` because `Type` is a Lean
keyword): the type of a binder, either a bound variable of a sort, or a
regular variable with a dependency bitset over the bound variables. -/
inductive Type' where
  | bound (s : Nat)
  | reg (s : Nat) (deps : Nat)
deriving DecidableEq, Repr

/-- `ExprNode` from `environment.rs`. -/
inductive ExprNode where
  | ref (i : Nat)
  | dummy (a : Nat) (s : Nat)
  | app (t : Nat) (es : List ExprNode)
deriving Repr

/-- `Expr` from `environment.rs`: a heap of nodes plus a head node. -/
structure Expr where
  heap : List ExprNode
  head : ExprNode
deriving Repr

/-- `ProofNode` from `environment.rs`. A single sum type spanning
expressions, proofs and conversions. -/
inductive ProofNode where
  | ref (i : Nat)
  | dummy (a : Nat) (s : Nat)
  | term (t : Nat) (args : List ProofNode)
  | hyp (i : Nat) (e : ProofNode)
  | thm (t : Nat) (args : List ProofNode) (res : ProofNode)
  | conv (tgt : ProofNode) (c : ProofNode) (p : ProofNode)
  | refl (e : ProofNode)
  | sym (p : ProofNode)
  | cong (t : Nat) (args : List ProofNode)
  | unfoldN (t : Nat) (args : List ProofNode) (lhs : ProofNode)
      (sublhs : ProofNode) (p : ProofNode)
deriving Repr

/-- `Proof` from `environment.rs`. -/
structure Proof where
  heap : List ProofNode
  hyps : List ProofNode
  head : ProofNode
deriving Repr

/-- `Term` from `environment.rs` (a `term` or `def` declaration). -/
structure Term where
  atom : Nat
  span : FileSpan
  vis : Modifiers
  full : Span
  args : List (Option Nat × Type')
  ret : Nat × Nat
  val : Option (Option Expr)
deriving Repr

/-- `Thm` from `environment.rs` (an `axiom` or `theorem` declaration). -/
structure Thm where
  atom : Nat
  span : FileSpan
  vis : Modifiers
  full : Span
  args : List (Option Nat × Type')
  heap : List ExprNode
  hyps : List (Option Nat × ExprNode)
  ret : ExprNode
  proof : Option (Option Proof)
deriving Repr

/-- `StmtTrace` from `environment.rs`: the global statement order. -/
inductive StmtTrace where
  | sort (a : Nat)
  | decl (a : Nat)
  | global (a : Nat)
deriving DecidableEq, Repr

/-- `AtomData` from `environment.rs`. The lisp and graveyard payloads are
irrelevant to the embedded operations and are modelled as `Option Unit`. -/
structure AtomData where
  name : String
  lisp : Option Unit
  graveyard : Option Unit
  sort : Option Nat
  decl : Option DeclKey
deriving Repr

/-- The `Environment` struct from `environment.rs` (the parser environment
`pe` is modelled separately below). -/
structure Environment where
  sorts : List Sort'
  terms : List Term
  thms : List Thm
  data : List AtomData
  stmts : List StmtTrace
deriving Repr

/-- `RedeclarationError` from `environment.rs`. The message strings are
kept but not formatted with the atom name. -/
structure RedeclarationError where
  msg : String
  othermsg : String
  other : FileSpan
deriving DecidableEq, Repr

/-- `AddItemError` from `environment.rs`. -/
inductive AddItemError (A : Type) where
  | redeclaration (a : A) (r : RedeclarationError)
  | overflow
deriving DecidableEq, Repr

/-- `Environment::add_sort` from `environment.rs` lines 1084-1104.
The Rust code first computes `SortID(self.sorts.len().try_into()...)`,
which produces `AddItemError::Overflow` exactly when the length does not
fit in a `u8` (that is, when it exceeds 255); this happens before the
redeclaration check. The indexing operations `self.data[a]` and
`self.sorts[old_id]` panic when out of range; a panic is modelled by
returning `none`. The result pairs the returned value with the updated
environment (the Rust method mutates `self`). -/
def addSort (env : Environment) (a : Nat) (fsp : FileSpan) (full : Span)
    (sd : Modifiers) : Option (Except (AddItemError Nat) Nat × Environment) :=
  if env.sorts.length > 255 then some (Except.error AddItemError.overflow, env) else
  let newId := env.sorts.length
  match env.data.get? a with
  | none => none
  | some data =>
    match data.sort with
    | some oldId =>
      match env.sorts.get? oldId with
      | none => none
      | some s =>
        if sd = s.mods then some (Except.ok oldId, env)
        else some (Except.error (AddItemError.redeclaration oldId
          { msg := "sort redeclared", othermsg := "previously declared here",
            other := s.span }), env)
    | none =>
      some (Except.ok newId,
        { env with
          data := env.data.set a { data with sort := some newId },
          sorts := env.sorts ++
            [{ atom := a, name := data.name, span := fsp, full := full, mods := sd }],
          stmts := env.stmts ++ [StmtTrace.sort a] })

/-- `Environment::add_term` from `environment.rs` lines 1108-1131.
`TermID` is a `u32`, so the initial `try_into` fails exactly when the
table length exceeds 4294967295, before the redeclaration check. The
term body is behind a thunk `t`, which the code calls only on the
success path; in this pure embedding the fact that the thunk is not
invoked on the other paths shows up as the result not depending on `t`
there. -/
def addTerm (env : Environment) (a : Nat) (new : FileSpan) (t : Unit → Term) :
    Option (Except (AddItemError (Option Nat)) Nat × Environment) :=
  if env.terms.length > 4294967295 then
    some (Except.error AddItemError.overflow, env) else
  let newId := env.terms.length
  match env.data.get? a with
  | none => none
  | some data =>
    match data.decl with
    | some (DeclKey.term oldId) =>
      match env.terms.get? oldId with
      | none => none
      | some td =>
        if td.span = new then some (Except.ok oldId, env)
        else some (Except.error (AddItemError.redeclaration (some oldId)
          { msg := "term redeclared", othermsg := "previously declared here",
            other := td.span }), env)
    | some (DeclKey.thm oldId) =>
      match env.thms.get? oldId with
      | none => none
      | some td =>
        some (Except.error (AddItemError.redeclaration none
          { msg := "term redeclared", othermsg := "previously declared here",
            other := td.span }), env)
    | none =>
      some (Except.ok newId,
        { env with
          data := env.data.set a { data with decl := some (DeclKey.term newId) },
          terms := env.terms ++ [t ()],
          stmts := env.stmts ++ [StmtTrace.decl a] })

/-! Concrete environments used as inputs for the `add_sort` / `add_term`
boundary theorems. -/

/-- A sort value with modifier bitset 0. -/
def csort : Sort' :=
  { atom := 0, name := "s", span := ⟨0, (0, 0)⟩, full := (0, 0), mods := 0 }

/-- Atom data for an atom that names sort number 0. -/
def cdata : AtomData :=
  { name := "s", lisp := none, graveyard := none, sort := some 0, decl := none }

/-- Atom data for a fresh atom (no sort, no declaration). -/
def fdata : AtomData :=
  { name := "f", lisp := none, graveyard := none, sort := none, decl := none }

/-- An environment whose sorts table already holds 256 entries. Such a state
is reachable: `add_sort` only reports overflow once the table length no
longer fits in a `u8`, so it accepts up to 256 sorts. -/
def env256 : Environment :=
  { sorts := List.replicate 256 csort, terms := [], thms := [],
    data := [cdata], stmts := [] }

/-- An environment whose sorts table holds exactly 128 entries. -/
def env128 : Environment :=
  { sorts := List.replicate 128 csort, terms := [], thms := [],
    data := [cdata, fdata], stmts := [] }

/-- C6 (amended): behavior of `add_sort` when the sorts table has at most
255 entries (so that the initial `u8` overflow conversion succeeds).
If the atom already names a sort with the same modifiers, the existing ID
is returned and the environment is unchanged; with different modifiers a
redeclaration error carrying the previous declaration location is
returned and the environment is unchanged; otherwise a new `Sort` is
appended to the table, the atom data is updated to point at it, and
exactly one `Sort` entry is pushed onto the statement trace. -/
theorem addSort_spec (env : Environment) (a : Nat) (fsp : FileSpan) (full : Span)
    (sd : Modifiers) (d : AtomData) (hd : env.data.get? a = some d)
    (hlen : env.sorts.length ≤ 255) :
    (∀ old s, d.sort = some old → env.sorts.get? old = some s →
      (sd = s.mods → addSort env a fsp full sd = some (Except.ok old, env)) ∧
      (sd ≠ s.mods → addSort env a fsp full sd = some (Except.error
        (AddItemError.redeclaration old
          { msg := "sort redeclared", othermsg := "previously declared here",
            other := s.span }), env))) ∧
    (d.sort = none → addSort env a fsp full sd = some (Except.ok env.sorts.length,
      { env with
        data := env.data.set a { d with sort := some env.sorts.length },
        sorts := env.sorts ++
          [{ atom := a, name := d.name, span := fsp, full := full, mods := sd }],
        stmts := env.stmts ++ [StmtTrace.sort a] })) := by
  have hov : ¬ env.sorts.length > 255 := by omega
  refine ⟨?_, ?_⟩
  · intro old s hold hs
    refine ⟨?_, ?_⟩
    · intro h
      simp only [addSort, if_neg hov, hd, hold, hs, if_pos h]
    · intro h
      simp only [addSort, if_neg hov, hd, hold, hs, if_neg h]
  · intro h
    simp only [addSort, if_neg hov, hd, h]

/-- Witness for `addSort_spec` at a concrete input: one sort named by atom 0,
re-added with the same modifiers, returns the existing ID 0 and leaves the
environment unchanged. -/
theorem addSort_spec_witness :
    env128.data.get? 0 = some cdata ∧ env128.sorts.length ≤ 255 ∧
    cdata.sort = some 0 ∧ env128.sorts.get? 0 = some csort ∧
    addSort env128 0 ⟨0, (0, 0)⟩ (0, 0) 0 = some (Except.ok 0, env128) := by
  have hl : env128.sorts.length = 128 := by
    simp only [env128, List.length_replicate]
  refine ⟨rfl, by omega, rfl, rfl, ?_⟩
  exact ((addSort_spec env128 0 ⟨0, (0, 0)⟩ (0, 0) 0 cdata rfl
    (by omega)).1 0 csort rfl rfl).1 rfl

/-- C4: with exactly 128 sorts in the table, `add_sort` under a fresh atom
does not return `Overflow`: it succeeds and allocates `SortID` 128, and
the table grows to 129 entries. The documentation of `AddItemError` in
`environment.rs` states that sorts "can only have 128 due to the MMB
format", and the specification gives the same bound, but the only check
in `add_sort` is the `u8` conversion, which fails only beyond 255. -/
theorem add_sort_no_overflow_at_128 :
    env128.sorts.length = 128 ∧
    env128.data.get? 1 = some fdata ∧ fdata.sort = none ∧
    ∃ env2, addSort env128 1 ⟨0, (0, 0)⟩ (0, 0) 0 = some (Except.ok 128, env2) ∧
      env2.sorts.length = 129 := by
  have hl : env128.sorts.length = 128 := by
    simp only [env128, List.length_replicate]
  have hov : ¬ env128.sorts.length > 255 := by omega
  refine ⟨hl, rfl, rfl,
    ⟨{ env128 with
        data := env128.data.set 1 { fdata with sort := some env128.sorts.length },
        sorts := env128.sorts ++
          [{ atom := 1, name := fdata.name, span := ⟨0, (0, 0)⟩,
             full := (0, 0), mods := 0 }],
        stmts := env128.stmts ++ [StmtTrace.sort 1] }, ?_, ?_⟩⟩
  · simp only [addSort, if_neg hov,
      show env128.data.get? 1 = some fdata from rfl,
      show fdata.sort = none from rfl]
    rw [hl]
  · simp only [List.length_append,
      show env128.sorts.length = 128 from hl, List.length_singleton]

/-- C6 counterexample: in an environment whose sorts table already holds 256
entries, atom 0 names sort 0 with identical modifiers, yet `add_sort`
returns `Overflow` instead of the existing ID: the overflow conversion is
computed before the idempotent-redeclaration check. -/
theorem addSort_not_idempotent_at_256 :
    env256.data.get? 0 = some cdata ∧ cdata.sort = some 0 ∧
    env256.sorts.get? 0 = some csort ∧ csort.mods = 0 ∧
    addSort env256 0 ⟨0, (0, 0)⟩ (0, 0) 0 =
      some (Except.error AddItemError.overflow, env256) := by
  have hl : env256.sorts.length = 256 := by
    simp only [env256, List.length_replicate]
  refine ⟨rfl, rfl, rfl, rfl, ?_⟩
  unfold addSort
  rw [if_pos (by omega)]

/-- C7 (amended): behavior of `add_term` when the terms table has at most
4294967295 entries (so that the initial `u32` overflow conversion
succeeds). If the atom is bound to a term with the same declaration span,
the old ID is returned, the environment is unchanged, and the result does
not depend on the thunk (the thunk is not invoked); a term with a
different span yields a redeclaration error carrying the old `TermID`; a
theorem yields a redeclaration error carrying no ID; in both error cases
the environment is unchanged and the result does not depend on the thunk.
Otherwise the thunk is forced and its result appended. -/
theorem addTerm_spec (env : Environment) (a : Nat) (new : FileSpan) (d : AtomData)
    (hd : env.data.get? a = some d) (hlen : env.terms.length ≤ 4294967295) :
    (∀ old td, d.decl = some (DeclKey.term old) → env.terms.get? old = some td →
      (td.span = new → ∀ t, addTerm env a new t = some (Except.ok old, env)) ∧
      (td.span ≠ new → ∀ t, addTerm env a new t = some (Except.error
        (AddItemError.redeclaration (some old)
          { msg := "term redeclared", othermsg := "previously declared here",
            other := td.span }), env))) ∧
    (∀ old td, d.decl = some (DeclKey.thm old) → env.thms.get? old = some td →
      ∀ t, addTerm env a new t = some (Except.error
        (AddItemError.redeclaration none
          { msg := "term redeclared", othermsg := "previously declared here",
            other := td.span }), env)) ∧
    (d.decl = none → ∀ t, addTerm env a new t = some (Except.ok env.terms.length,
      { env with
        data := env.data.set a { d with decl := some (DeclKey.term env.terms.length) },
        terms := env.terms ++ [t ()],
        stmts := env.stmts ++ [StmtTrace.decl a] })) := by
  have hov : ¬ env.terms.length > 4294967295 := by omega
  refine ⟨?_, ?_, ?_⟩
  · intro old td hold htd
    refine ⟨?_, ?_⟩
    · intro h t
      simp only [addTerm, if_neg hov, hd, hold, htd, if_pos h]
    · intro h t
      simp only [addTerm, if_neg hov, hd, hold, htd, if_neg h]
  · intro old td hold htd t
    simp only [addTerm, if_neg hov, hd, hold, htd]
  · intro h t
    simp only [addTerm, if_neg hov, hd, h]

/-- A term value used in the `add_term` theorems. -/
def bigTerm : Term :=
  { atom := 0, span := ⟨0, (0, 0)⟩, vis := 0, full := (0, 0),
    args := [], ret := (0, 0), val := none }

/-- Atom data for an atom bound to term number 0. -/
def tdata : AtomData :=
  { name := "t", lisp := none, graveyard := none, sort := none,
    decl := some (DeclKey.term 0) }

/-- A small environment with one term, bound to atom 0. -/
def envT : Environment :=
  { sorts := [], terms := [bigTerm], thms := [], data := [tdata], stmts := [] }

/-- Witness for `addTerm_spec` at a concrete input: atom 0 is bound to term 0
with the same span, so `add_term` returns ID 0 and leaves the environment
unchanged, for an arbitrary concrete thunk. -/
theorem addTerm_spec_witness :
    envT.data.get? 0 = some tdata ∧ envT.terms.length ≤ 4294967295 ∧
    tdata.decl = some (DeclKey.term 0) ∧ envT.terms.get? 0 = some bigTerm ∧
    addTerm envT 0 ⟨0, (0, 0)⟩ (fun _ => bigTerm) = some (Except.ok 0, envT) := by
  have hl : envT.terms.length = 1 := rfl
  refine ⟨rfl, by omega, rfl, rfl, ?_⟩
  exact ((addTerm_spec envT 0 ⟨0, (0, 0)⟩ tdata rfl (by omega)).1 0 bigTerm
    rfl rfl).1 rfl (fun _ => bigTerm)

/-- An environment whose terms table holds 4294967296 entries (the `u32`
limit plus one). Such a state is reachable in principle, since `add_term`
only reports overflow once the length no longer fits in a `u32`. -/
def envBig : Environment :=
  { sorts := [], terms := bigTerm :: List.replicate 4294967295 bigTerm,
    thms := [], data := [tdata], stmts := [] }

/-- C7 counterexample: when the terms table holds 4294967296 entries, atom 0
is bound to term 0 whose span equals the new span, yet `add_term` returns
`Overflow` instead of the old ID: the overflow conversion is computed
before the redeclaration check. -/
theorem addTerm_not_idempotent_at_u32_max :
    envBig.data.get? 0 = some tdata ∧ tdata.decl = some (DeclKey.term 0) ∧
    envBig.terms.get? 0 = some bigTerm ∧ bigTerm.span = ⟨0, (0, 0)⟩ ∧
    addTerm envBig 0 ⟨0, (0, 0)⟩ (fun _ => bigTerm) =
      some (Except.error AddItemError.overflow, envBig) := by
  have hl : envBig.terms.length = 4294967296 := by
    rw [envBig]
    rw [List.length_cons, List.length_replicate]
  refine ⟨rfl, rfl, rfl, rfl, ?_⟩
  unfold addTerm
  rw [if_pos (by omega)]

/-! ## The proof compacter (`proof.rs`)

`ExprHash` and `ProofHash` are the de-recursified node types: recursive
occurrences are replaced by `Nat` indexes into the `Dedup` arena. -/

/-- `ExprHash` from `proof.rs`. -/
inductive ExprHash where
  | ref (n : Nat)
  | dummy (a : Nat) (s : Nat)
  | app (t : Nat) (args : List Nat)
deriving DecidableEq, Repr

/-- `ProofHash` from `proof.rs`. `unfoldH` is `ProofHash::Unfold`
(`Unfold(term, args, lhs, sub_lhs, p)`). -/
inductive ProofHash where
  | ref (n : Nat)
  | dummy (a : Nat) (s : Nat)
  | term (t : Nat) (args : List Nat)
  | hyp (i : Nat) (e : Nat)
  | thm (t : Nat) (args : List Nat) (res : Nat)
  | conv (tgt : Nat) (c : Nat) (p : Nat)
  | refl (e : Nat)
  | sym (c : Nat)
  | cong (t : Nat) (args : List Nat)
  | unfoldH (t : Nat) (args : List Nat) (lhs : Nat) (sublhs : Nat) (c : Nat)
deriving DecidableEq, Repr

instance : Inhabited ProofHash := ⟨ProofHash.ref 0⟩

/-- `ExprHash::vars` from `proof.rs` lines 377-384. The Rust function takes
`bv` by mutable reference and doubles it when the node is a dummy; here the
updated `bv` is returned as the second component. -/
def ExprHash.vars : ExprHash → Nat → (Nat → Nat) → Nat × Nat
  | .ref n, bv, deps => (deps n, bv)
  | .dummy _ _, bv, _ => (bv, bv * 2)
  | .app _ es, bv, deps => (es.foldl (fun a i => a ||| deps i) 0, bv)

/-- `ProofHash::vars` from `proof.rs` lines 683-691: `Ref` yields the deps
of the referenced entry, `Dummy` takes a fresh bit, `Term` takes the union
of the child deps, and every other (proof or conversion) node yields 0. -/
def ProofHash.vars : ProofHash → Nat → (Nat → Nat) → Nat × Nat
  | .ref n, bv, deps => (deps n, bv)
  | .dummy _ _, bv, _ => (bv, bv * 2)
  | .term _ es, bv, deps => (es.foldl (fun a i => a ||| deps i) 0, bv)
  | _, bv, _ => (0, bv)

/-- `ExprHash::to_proof` from `proof.rs` lines 698-705. -/
def ExprHash.toProof : ExprHash → ProofHash
  | .ref i => ProofHash.ref i
  | .dummy a s => ProofHash.dummy a s
  | .app t ns => ProofHash.term t ns

/-- The state of a `Dedup<ProofHash>` from `proof.rs`: the vector of
`(hash, shared, deps)` entries and the running `bv` counter. The
`map: HashMap<Rc<H>, usize>` is not stored separately: entries are
inserted into the map exactly when they are pushed onto the vector, so
a map lookup is the first index in the vector with an equal hash. The
`prev` pointer cache only decides whether a lisp value is re-traversed
(a hit behaves like `reuse`), so it needs no model of its own. -/
structure Dedup where
  vec : List (ProofHash × Bool × Nat)
  bv : Nat
deriving Repr

/-- The deps of entry `i` (`self.vec[i].2` in the source). Out-of-range
access panics in Rust; here it defaults to 0, and the theorems only use
it in range. -/
def depsAt (vec : List (ProofHash × Bool × Nat)) (i : Nat) : Nat :=
  (vec.getD i default).2.2

/-- The hash of entry `i`. -/
def hashAt (vec : List (ProofHash × Bool × Nat)) (i : Nat) : Option ProofHash :=
  (vec.get? i).map (fun e => e.1)

/-- Mark entry `n` as shared (`self.vec[n].1 = true`). -/
def markShared (vec : List (ProofHash × Bool × Nat)) (n : Nat) :
    List (ProofHash × Bool × Nat) :=
  match vec.get? n with
  | some (h, _, d) => vec.set n (h, true, d)
  | none => vec

/-- `Dedup::add_direct` from `proof.rs` lines 189-205: on a map miss,
compute the deps by `vars` (also updating `bv`) and push a new unshared
entry; on a hit, mark the existing entry shared and return its index. -/
def Dedup.addDirect (de : Dedup) (v : ProofHash) : Nat × Dedup :=
  match de.vec.findIdx? (fun e => e.1 = v) with
  | some n => (n, { de with vec := markShared de.vec n })
  | none =>
    let n := de.vec.length
    let vd := v.vars de.bv (fun i => depsAt de.vec i)
    (n, { vec := de.vec ++ [(v, false, vd.1)], bv := vd.2 })

/-- `Dedup::reuse` from `proof.rs` lines 207-210. -/
def Dedup.reuse (de : Dedup) (n : Nat) : Nat × Dedup :=
  (n, { de with vec := markShared de.vec n })

/-- The seed entries of `Dedup::new` from `proof.rs` lines 117-130: one
`Ref(i)` per formal argument, each marked shared, whose deps are the next
power-of-two bit for a bound variable (doubling the running `bv`) and the
declared deps for a regular variable. Returns the entries and final `bv`. -/
def newEntries : List (Option Nat × Type') → Nat → Nat →
    List (ProofHash × Bool × Nat) × Nat
  | [], _, bv => ([], bv)
  | (_, Type'.bound _) :: rest, i, bv =>
    let p := newEntries rest (i + 1) (bv * 2)
    ((ProofHash.ref i, true, bv) :: p.1, p.2)
  | (_, Type'.reg _ deps) :: rest, i, bv =>
    let p := newEntries rest (i + 1) bv
    ((ProofHash.ref i, true, deps) :: p.1, p.2)

/-- `Dedup::new` from `proof.rs` lines 117-130, with `bv` starting at 1. -/
def Dedup.new (args : List (Option Nat × Type')) : Dedup :=
  let p := newEntries args 0 1
  { vec := p.1, bv := p.2 }

/-- `ProofHash::subst` from `proof.rs` lines 485-502, run on a list of
expressions sequentially threading the state (a single expression is run
as a singleton list, and the `App` case runs its argument list). The
explicit fuel makes the heap recursion structural; `none` models both
fuel exhaustion and the Rust panics (out-of-range indexing, and the
`unreachable!()` for `Dummy` nodes, which cannot occur in theorem
statement heaps). The cases mirror the source: a `Ref` with a memoized
substitution in `nheap` is `reuse`d; an unmemoized `Ref` substitutes the
heap entry and records it; an `App` substitutes the arguments and then
`add_direct`s a `Term` node. -/
def substL : Nat → Dedup → List ExprNode → List (Option Nat) → List ExprNode →
    Option (List Nat × Dedup × List (Option Nat))
  | 0, _, _, _, _ => none
  | _ + 1, de, _, nheap, [] => some ([], de, nheap)
  | fuel + 1, de, heap, nheap, e :: rest =>
    let step : Option (Nat × Dedup × List (Option Nat)) :=
      match e with
      | ExprNode.ref i =>
        match nheap.get? i with
        | none => none
        | some (some n) =>
          let p := de.reuse n
          some (p.1, p.2, nheap)
        | some none =>
          match heap.get? i with
          | none => none
          | some hi =>
            match substL fuel de heap nheap [hi] with
            | some ([n], de2, nh2) => some (n, de2, nh2.set i (some n))
            | _ => none
      | ExprNode.dummy _ _ => none
      | ExprNode.app t es =>
        match substL fuel de heap nheap es with
        | none => none
        | some (ns, de2, nh2) =>
          let p := de2.addDirect (ProofHash.term t ns)
          some (p.1, p.2, nh2)
    match step with
    | none => none
    | some (n, de2, nh2) =>
      match substL fuel de2 heap nh2 rest with
      | none => none
      | some (ns, de3, nh3) => some (n :: ns, de3, nh3)

/-- `ProofHash::subst` on a single expression. -/
def subst (fuel : Nat) (de : Dedup) (heap : List ExprNode)
    (nheap : List (Option Nat)) (e : ExprNode) :
    Option (Nat × Dedup × List (Option Nat)) :=
  match substL fuel de heap nheap [e] with
  | some ([n], de2, nh2) => some (n, de2, nh2)
  | _ => none

/-- The child indexes of a hash node (every `usize` index occurring in it). -/
def ProofHash.children : ProofHash → List Nat
  | .ref n => [n]
  | .dummy _ _ => []
  | .term _ es => es
  | .hyp _ e => [e]
  | .thm _ es r => es ++ [r]
  | .conv t c p => [t, c, p]
  | .refl e => [e]
  | .sym c => [c]
  | .cong _ es => es
  | .unfoldH _ es l m c => es ++ [l, m, c]

/-- Arena well-formedness: every entry is either the self-referencing
`Ref(k)` seeded at position `k` by `Dedup::new`, or refers only to
earlier entries. This holds for every arena built through the API. -/
def ArenaWf (de : Dedup) : Prop :=
  ∀ k h, hashAt de.vec k = some h →
    h = ProofHash.ref k ∨ ∀ c ∈ h.children, c < k

/-! ## The disjoint-variable check (`ProofHash::from`, `Thm` case,
`proof.rs` lines 590-641) -/

/-- The per-regular-binder disjointness test (line 604-609):
`bvs.iter().all(|&bv| { let old = d; d /= 2; old & 1 != 0 || bv & deps == 0 })`.
The bit of `d` for each earlier bound variable is consumed in order; a set
bit means the binder declared a dependency on that bound variable, so no
disjointness is required there. -/
def regOk : Nat → List Nat → Nat → Bool
  | _, [], _ => true
  | d, bv :: rest, deps =>
    (decide (d % 2 = 1) || decide (bv &&& deps = 0)) && regOk (d / 2) rest deps

/-- The per-bound-binder disjointness test (line 600-603):
`ns[..i].iter().all(|&j| de.vec[j].2 & deps == 0)`. -/
def boundOk (de : Dedup) (ns : List Nat) (i : Nat) (deps : Nat) : Bool :=
  (ns.take i).all (fun j => decide (depsAt de.vec j &&& deps = 0))

/-- The filter of the error-reporting pass for a regular binder
(lines 619-622): keep the earlier bound positions whose bit in `d` is
clear (the pairs required to be disjoint). -/
def regFilter : Nat → List Nat → List Nat
  | _, [] => []
  | d, j :: rest =>
    if d % 2 = 0 then j :: regFilter (d / 2) rest else regFilter (d / 2) rest

/-- The full list of binder pairs that the theorem requires to be disjoint
(the `dvs` computed in the error-reporting pass, lines 611-624): for a
bound binder at position `i`, every pair `(j, i)` with `j < i`; for a
regular binder at position `i`, the pairs `(j, i)` for each earlier bound
position `j` whose dependency bit is clear. `bvs` accumulates the bound
positions seen so far. -/
def dvs : List (Option Nat × Type') → Nat → List Nat → List (Nat × Nat)
  | [], _, _ => []
  | (_, Type'.bound _) :: rest, i, bvs =>
    (List.range i).map (fun j => (j, i)) ++ dvs rest (i + 1) (bvs ++ [i])
  | (_, Type'.reg _ d) :: rest, i, bvs =>
    (regFilter d bvs).map (fun j => (j, i)) ++ dvs rest (i + 1) bvs

/-- The pairs actually reported in the error message (lines 627-634): the
required pairs whose substituted arguments have overlapping bound-variable
bitsets. -/
def offenders (de : Dedup) (ns : List Nat) (pairs : List (Nat × Nat)) :
    List (Nat × Nat) :=
  pairs.filter
    (fun p => decide (depsAt de.vec (ns.getD p.1 0) &&& depsAt de.vec (ns.getD p.2 0) ≠ 0))

/-- The main DV-check loop over the binder list (lines 596-638), carrying
the position `i`, the deps of the bound arguments seen so far (`bvs`),
and the substitution array `nheap` being filled with `heap[i] = Some(ns[i])`.
On the first failing binder the error-reporting pass recomputes the full
pair list and reports every offending pair. `none` models the Rust panics
for out-of-range `ns[i]` or `heap[i]`. -/
def dvLoop (de : Dedup) (tdargs : List (Option Nat × Type')) (ns : List Nat) :
    List (Option Nat × Type') → Nat → List Nat → List (Option Nat) →
    Option (Except (List (Nat × Nat)) (List (Option Nat)))
  | [], _, _, nheap => some (Except.ok nheap)
  | (_, t) :: rest, i, bvs, nheap =>
    match ns.get? i with
    | none => none
    | some nsi =>
      if i < nheap.length then
        let nheap2 := nheap.set i (some nsi)
        let deps := depsAt de.vec nsi
        match t with
        | Type'.bound _ =>
          if boundOk de ns i deps then
            dvLoop de tdargs ns rest (i + 1) (bvs ++ [deps]) nheap2
          else some (Except.error (offenders de ns (dvs tdargs 0 [])))
        | Type'.reg _ d =>
          if regOk d bvs deps then
            dvLoop de tdargs ns rest (i + 1) bvs nheap2
          else some (Except.error (offenders de ns (dvs tdargs 0 [])))
      else none

/-- The `Some(DeclKey::Thm(tid))` branch of `ProofHash::from`
(lines 590-641): given the already-deduplicated argument indexes `ns`,
run the DV check (filling `nheap`, seeded with `vec![None; td.heap.len()]`),
then substitute the conclusion `td.ret` through the statement heap, and
produce the `Thm(tid, ns, rhs)` node together with the extended arena.
A DV violation is a fatal error listing the offending pairs. -/
def thmApp (fuel : Nat) (de : Dedup) (td : Thm) (tid : Nat) (ns : List Nat) :
    Option (Except (List (Nat × Nat)) (ProofHash × Dedup)) :=
  match dvLoop de td.args ns td.args 0 [] (List.replicate td.heap.length none) with
  | none => none
  | some (Except.error e) => some (Except.error e)
  | some (Except.ok nheap) =>
    match subst fuel de td.heap nheap td.ret with
    | none => none
    | some (rhs, de2, _) => some (Except.ok (ProofHash.thm tid ns rhs, de2))

/-! ## C1: the DV check accepts exactly the disjoint substitutions -/

theorem regOk_iff (f : Nat → Nat) (deps : Nat) :
    ∀ (bvsIdx : List Nat) (d : Nat),
    (regOk d (bvsIdx.map f) deps = true ↔
      ∀ j ∈ regFilter d bvsIdx, f j &&& deps = 0) := by
  intro bvsIdx
  induction bvsIdx with
  | nil => intro d; simp [regOk, regFilter]
  | cons j rest ih =>
    intro d
    rcases Nat.mod_two_eq_zero_or_one d with h | h
    · simp [regOk, regFilter, h, ih (d / 2)]
    · simp [regOk, regFilter, h, ih (d / 2)]

theorem boundOk_iff (de : Dedup) (deps : Nat) :
    ∀ (ns : List Nat) (i : Nat), i ≤ ns.length →
    (boundOk de ns i deps = true ↔
      ∀ j < i, depsAt de.vec (ns.getD j 0) &&& deps = 0) := by
  intro ns
  induction ns with
  | nil =>
    intro i hi
    have : i = 0 := Nat.le_zero.1 hi
    subst this
    simp [boundOk]
  | cons a ns ih =>
    intro i hi
    match i with
    | 0 => simp [boundOk]
    | i + 1 =>
      simp only [List.length_cons, Nat.add_le_add_iff_right] at hi
      simp only [boundOk, List.take_succ_cons, List.all_cons, Bool.and_eq_true,
        decide_eq_true_eq]
      rw [show (ns.take i).all (fun j => decide (depsAt de.vec j &&& deps = 0)) =
        boundOk de ns i deps from rfl, ih i hi]
      constructor
      · rintro ⟨h0, hrest⟩ j hj
        match j with
        | 0 => exact h0
        | j + 1 => exact hrest j (Nat.lt_of_succ_lt_succ hj)
      · intro hall
        exact ⟨hall 0 (Nat.succ_pos i),
          fun j hj => hall (j + 1) (Nat.succ_lt_succ hj)⟩

theorem get?_eq_getD (l : List Nat) (i : Nat) (h : i < l.length) :
    l.get? i = some (l.getD i 0) := by
  rcases hg : l.get? i with _ | v
  · exact absurd (List.get?_eq_none.1 hg) (by omega)
  · rw [List.getD_eq_getElem?_getD, ← List.get?_eq_getElem?, hg]; rfl

theorem dvLoop_ok_iff (de : Dedup) (tdargs : List (Option Nat × Type'))
    (ns : List Nat) :
    ∀ (rest : List (Option Nat × Type')) (i : Nat) (bvsIdx : List Nat)
      (nheap : List (Option Nat)),
    i + rest.length ≤ ns.length → i + rest.length ≤ nheap.length →
    ((∃ nh, dvLoop de tdargs ns rest i
        (bvsIdx.map (fun j => depsAt de.vec (ns.getD j 0))) nheap
          = some (Except.ok nh)) ↔
      ∀ p ∈ dvs rest i bvsIdx,
        depsAt de.vec (ns.getD p.1 0) &&& depsAt de.vec (ns.getD p.2 0) = 0) := by
  intro rest
  induction rest with
  | nil =>
    intro i bvsIdx nheap _ _
    simp [dvLoop, dvs]
  | cons arg rest ih =>
    intro i bvsIdx nheap h1 h2
    obtain ⟨na, t⟩ := arg
    simp only [List.length_cons] at h1 h2
    have hilt : i < ns.length := by omega
    have hin : i < nheap.length := by omega
    have hget : ns.get? i = some (ns.getD i 0) := get?_eq_getD ns i hilt
    cases t with
    | bound s =>
      simp only [dvLoop, hget, if_pos hin]
      by_cases hok : boundOk de ns i (depsAt de.vec (ns.getD i 0)) = true
      · rw [if_pos hok]
        have hmap : (bvsIdx.map (fun j => depsAt de.vec (ns.getD j 0))) ++
            [depsAt de.vec (ns.getD i 0)] =
            (bvsIdx ++ [i]).map (fun j => depsAt de.vec (ns.getD j 0)) := by
          simp
        rw [hmap, ih (i + 1) (bvsIdx ++ [i]) (nheap.set i (some (ns.getD i 0)))
          (by omega) (by simp; omega)]
        have hbd := (boundOk_iff de (depsAt de.vec (ns.getD i 0)) ns i
          (by omega)).1 hok
        simp only [dvs, List.mem_append, List.mem_map, List.mem_range]
        constructor
        · intro hrest p hp
          rcases hp with ⟨j, hj, rfl⟩ | hp
          · exact hbd j hj
          · exact hrest p hp
        · intro hall p hp
          exact hall p (Or.inr hp)
      · rw [if_neg hok]
        constructor
        · rintro ⟨nh, h⟩
          exact absurd h (by simp)
        · intro hall
          exact absurd ((boundOk_iff de (depsAt de.vec (ns.getD i 0)) ns i
            (by omega)).2 (fun j hj => hall (j, i)
              (by simp only [dvs, List.mem_append]
                  exact Or.inl (List.mem_map.2 ⟨j, List.mem_range.2 hj, rfl⟩)))) hok
    | reg s d =>
      simp only [dvLoop, hget, if_pos hin]
      by_cases hok : regOk d (bvsIdx.map (fun j => depsAt de.vec (ns.getD j 0)))
          (depsAt de.vec (ns.getD i 0)) = true
      · rw [if_pos hok]
        rw [ih (i + 1) bvsIdx (nheap.set i (some (ns.getD i 0)))
          (by omega) (by simp; omega)]
        have hrg := (regOk_iff (fun j => depsAt de.vec (ns.getD j 0))
          (depsAt de.vec (ns.getD i 0)) bvsIdx d).1 hok
        simp only [dvs, List.mem_append, List.mem_map]
        constructor
        · intro hrest p hp
          rcases hp with ⟨j, hj, rfl⟩ | hp
          · exact hrg j hj
          · exact hrest p hp
        · intro hall p hp
          exact hall p (Or.inr hp)
      · rw [if_neg hok]
        constructor
        · rintro ⟨nh, h⟩
          exact absurd h (by simp)
        · intro hall
          exact absurd ((regOk_iff (fun j => depsAt de.vec (ns.getD j 0))
            (depsAt de.vec (ns.getD i 0)) bvsIdx d).2 (fun j hj => hall (j, i)
              (by simp only [dvs, List.mem_append]
                  exact Or.inl (List.mem_map.2 ⟨j, hj, rfl⟩)))) hok

theorem dvLoop_cases (de : Dedup) (tdargs : List (Option Nat × Type'))
    (ns : List Nat) :
    ∀ (rest : List (Option Nat × Type')) (i : Nat) (bvs : List Nat)
      (nheap : List (Option Nat)),
    i + rest.length ≤ ns.length → i + rest.length ≤ nheap.length →
    (∃ nh, dvLoop de tdargs ns rest i bvs nheap = some (Except.ok nh)) ∨
    dvLoop de tdargs ns rest i bvs nheap =
      some (Except.error (offenders de ns (dvs tdargs 0 []))) := by
  intro rest
  induction rest with
  | nil =>
    intro i bvs nheap _ _
    exact Or.inl ⟨nheap, rfl⟩
  | cons arg rest ih =>
    intro i bvs nheap h1 h2
    obtain ⟨na, t⟩ := arg
    simp only [List.length_cons] at h1 h2
    have hget : ns.get? i = some (ns.getD i 0) := get?_eq_getD ns i (by omega)
    have hin : i < nheap.length := by omega
    cases t with
    | bound s =>
      simp only [dvLoop, hget, if_pos hin]
      by_cases hok : boundOk de ns i (depsAt de.vec (ns.getD i 0)) = true
      · rw [if_pos hok]
        exact ih (i + 1) (bvs ++ [depsAt de.vec (ns.getD i 0)])
          (nheap.set i (some (ns.getD i 0))) (by omega) (by simp; omega)
      · rw [if_neg hok]
        exact Or.inr rfl
    | reg s d =>
      simp only [dvLoop, hget, if_pos hin]
      by_cases hok : regOk d bvs (depsAt de.vec (ns.getD i 0)) = true
      · rw [if_pos hok]
        exact ih (i + 1) bvs (nheap.set i (some (ns.getD i 0)))
          (by omega) (by simp; omega)
      · rw [if_neg hok]
        exact Or.inr rfl

/-- Unfolding helper: the result of `thmApp` when the DV loop succeeds. -/
theorem thmApp_of_dvLoop_ok (fuel : Nat) (de : Dedup) (td : Thm) (tid : Nat)
    (ns : List Nat) (nh : List (Option Nat))
    (h : dvLoop de td.args ns td.args 0 [] (List.replicate td.heap.length none)
      = some (Except.ok nh)) :
    thmApp fuel de td tid ns =
      match subst fuel de td.heap nh td.ret with
      | none => none
      | some (rhs, de2, _) => some (Except.ok (ProofHash.thm tid ns rhs, de2)) := by
  unfold thmApp
  rw [h]

/-- C1: when the proof compacter elaborates an application of a theorem to
arguments, the application passes the DV check exactly when, for every
pair of binder positions `(i, j)` that the theorem requires to be disjoint
(`dvs td.args 0 []`: `j` a bound binder and `i` any earlier binder, or `i`
a bound binder and `j` a regular binder whose dependency bitset has a
clear bit at `i`), the dependency bitsets of the substituted arguments at
`i` and `j` have empty intersection. When some required pair overlaps, the
application fails with an error listing exactly the offending pairs (every
required pair with a nonzero intersection), and an accepted application
implies all required pairs are disjoint. -/
theorem thmApp_dv_check (fuel : Nat) (de : Dedup) (td : Thm) (tid : Nat)
    (ns : List Nat) (h1 : td.args.length ≤ ns.length)
    (h2 : td.args.length ≤ td.heap.length) :
    (∀ r, thmApp fuel de td tid ns = some (Except.ok r) →
      ∀ p ∈ dvs td.args 0 [],
        depsAt de.vec (ns.getD p.1 0) &&& depsAt de.vec (ns.getD p.2 0) = 0) ∧
    ((¬ ∀ p ∈ dvs td.args 0 [],
        depsAt de.vec (ns.getD p.1 0) &&& depsAt de.vec (ns.getD p.2 0) = 0) →
      thmApp fuel de td tid ns =
        some (Except.error (offenders de ns (dvs td.args 0 [])))) ∧
    (∀ p, p ∈ offenders de ns (dvs td.args 0 []) ↔
      p ∈ dvs td.args 0 [] ∧
        depsAt de.vec (ns.getD p.1 0) &&& depsAt de.vec (ns.getD p.2 0) ≠ 0) := by
  have hlen : (0 : Nat) + td.args.length ≤ ns.length := by omega
  have hlen2 : (0 : Nat) + td.args.length ≤
      (List.replicate td.heap.length (none : Option Nat)).length := by
    simp only [List.length_replicate]; omega
  have hiff := dvLoop_ok_iff de td.args ns td.args 0 []
    (List.replicate td.heap.length none) hlen hlen2
  simp only [List.map_nil] at hiff
  refine ⟨?_, ?_, ?_⟩
  · intro r hr
    rcases dvLoop_cases de td.args ns td.args 0 []
      (List.replicate td.heap.length none) hlen hlen2 with ⟨nh, hok⟩ | herr
    · exact hiff.1 ⟨nh, hok⟩
    · exfalso
      unfold thmApp at hr
      rw [herr] at hr
      exact Except.noConfusion (Option.some.inj hr)
  · intro hviol
    rcases dvLoop_cases de td.args ns td.args 0 []
      (List.replicate td.heap.length none) hlen hlen2 with ⟨nh, hok⟩ | herr
    · exact absurd (hiff.1 ⟨nh, hok⟩) hviol
    · unfold thmApp
      rw [herr]
  · intro p
    simp [offenders, List.mem_filter]

/-- A concrete theorem for the C1 witness: arguments
`{x : s0} (p : s0)` (so the single required pair is `(0, 1)`),
statement heap `[Ref 0, Ref 1]`, conclusion `Ref 1`. -/
def cTd : Thm :=
  { atom := 0, span := ⟨0, (0, 0)⟩, vis := 0, full := (0, 0),
    args := [(some 0, Type'.bound 0), (some 1, Type'.reg 0 0)],
    heap := [ExprNode.ref 0, ExprNode.ref 1],
    hyps := [], ret := ExprNode.ref 1, proof := none }

/-- The seed arena for `cTd`. -/
def cDe : Dedup := Dedup.new cTd.args

/-- Witness for `thmApp_dv_check`: substituting entry 0 (the bound variable,
deps bit 1) for both binders violates the disjointness pair `(0, 1)`, and
the application fails listing exactly that pair. -/
theorem thmApp_dv_check_witness :
    cTd.args.length ≤ [0, 0].length ∧ cTd.args.length ≤ cTd.heap.length ∧
    thmApp 9 cDe cTd 7 [0, 0] = some (Except.error [(0, 1)]) := by
  refine ⟨by decide, by decide, ?_⟩
  have h := (thmApp_dv_check 9 cDe cTd 7 [0, 0] (by decide) (by decide)).2.1
    (by decide)
  have hoff : offenders cDe [0, 0] (dvs cTd.args 0 []) = [(0, 1)] := by decide
  rw [h, hoff]

/-! ## C2: denotation of arena entries and correctness of `subst` -/

/-- Pure expression trees: the unfolded reading of an expression stored in
the arena or in a statement heap. `var i` is the formal variable at binder
position `i`. -/
inductive PTree where
  | var (i : Nat)
  | dum (a : Nat) (s : Nat)
  | node (t : Nat) (es : List PTree)

/-- `Denotes vec i t`: arena entry `i` (reading only the hash components of
`vec`) is an expression whose unfolded reading is `t`. The seed entries of
`Dedup::new` are the self-referencing `Ref(i)` hashes and denote the
formal variable `i`; any other `Ref` is followed; `Term` nodes read as
applications (the child list is quantified pointwise to keep the
induction principle first-order). Non-expression entries denote nothing. -/
inductive Denotes (vec : List (ProofHash × Bool × Nat)) : Nat → PTree → Prop where
  | var (i : Nat) : hashAt vec i = some (ProofHash.ref i) →
      Denotes vec i (PTree.var i)
  | ref (i n : Nat) (t : PTree) : hashAt vec i = some (ProofHash.ref n) →
      n ≠ i → Denotes vec n t → Denotes vec i t
  | dum (i a s : Nat) : hashAt vec i = some (ProofHash.dummy a s) →
      Denotes vec i (PTree.dum a s)
  | node (i t : Nat) (es : List Nat) (ts : List PTree) :
      hashAt vec i = some (ProofHash.term t es) →
      es.length = ts.length →
      (∀ k n t', es.get? k = some n → ts.get? k = some t' → Denotes vec n t') →
      Denotes vec i (PTree.node t ts)

/-- `SubstTree heap σ e t`: `t` is the reading of the statement expression
`e` with the substitution `σ` applied to the formal variables (heap
references outside the domain of `σ` are followed through the statement
heap). This is the specification-side meaning of substituting the
theorem conclusion. -/
inductive SubstTree (heap : List ExprNode) (σ : Nat → Option PTree) :
    ExprNode → PTree → Prop where
  | sub (i : Nat) (t : PTree) : σ i = some t →
      SubstTree heap σ (ExprNode.ref i) t
  | heapRef (i : Nat) (e : ExprNode) (t : PTree) : σ i = none →
      heap.get? i = some e → SubstTree heap σ e t →
      SubstTree heap σ (ExprNode.ref i) t
  | app (t : Nat) (es : List ExprNode) (ts : List PTree) :
      es.length = ts.length →
      (∀ k e t', es.get? k = some e → ts.get? k = some t' →
        SubstTree heap σ e t') →
      SubstTree heap σ (ExprNode.app t es) (PTree.node t ts)

/-- A denotation is unique: the hash at each entry determines the reading. -/
theorem Denotes_unique (vec : List (ProofHash × Bool × Nat)) :
    ∀ i t, Denotes vec i t → ∀ t2, Denotes vec i t2 → t = t2 := by
  intro i t h
  induction h with
  | var i h1 =>
    intro t2 h2
    cases h2 with
    | var _ _ => rfl
    | ref _ n _ h2a hne _ =>
      rw [h1] at h2a
      exact absurd (ProofHash.ref.inj (Option.some.inj h2a)).symm hne
    | dum _ _ _ h2a => rw [h1] at h2a; exact ProofHash.noConfusion (Option.some.inj h2a)
    | node _ _ _ _ h2a _ _ => rw [h1] at h2a; exact ProofHash.noConfusion (Option.some.inj h2a)
  | ref i n t h1 hne hd ih =>
    intro t2 h2
    cases h2 with
    | var _ h2a =>
      rw [h1] at h2a
      exact absurd (ProofHash.ref.inj (Option.some.inj h2a)) hne
    | ref _ n2 _ h2a hne2 hd2 =>
      rw [h1] at h2a
      cases ProofHash.ref.inj (Option.some.inj h2a)
      exact ih _ hd2
    | dum _ _ _ h2a => rw [h1] at h2a; exact ProofHash.noConfusion (Option.some.inj h2a)
    | node _ _ _ _ h2a _ _ => rw [h1] at h2a; exact ProofHash.noConfusion (Option.some.inj h2a)
  | dum i a s h1 =>
    intro t2 h2
    cases h2 with
    | dum _ _ _ h2a =>
      obtain ⟨rfl, rfl⟩ := ProofHash.dummy.inj (Option.some.inj (h1 ▸ h2a))
      rfl
    | var _ h2a => rw [h1] at h2a; exact ProofHash.noConfusion (Option.some.inj h2a)
    | ref _ _ _ h2a _ _ => rw [h1] at h2a; exact ProofHash.noConfusion (Option.some.inj h2a)
    | node _ _ _ _ h2a _ _ => rw [h1] at h2a; exact ProofHash.noConfusion (Option.some.inj h2a)
  | node i t es ts h1 hlen hf ih =>
    intro t2 h2
    cases h2 with
    | node _ t2' es2 ts2 h2a hlen2 hf2 =>
      rw [h1] at h2a
      obtain ⟨rfl, rfl⟩ := ProofHash.term.inj (Option.some.inj h2a)
      suffices hts : ts = ts2 by rw [hts]
      apply List.ext_get?
      intro k
      by_cases hk : k < es.length
      · obtain ⟨nn, hnn⟩ : ∃ x, es.get? k = some x := by
          rw [List.get?_eq_get hk]; exact ⟨_, rfl⟩
        obtain ⟨t1', ht1⟩ : ∃ x, ts.get? k = some x := by
          rw [List.get?_eq_get (show k < ts.length by omega)]; exact ⟨_, rfl⟩
        obtain ⟨t2'', ht2⟩ : ∃ x, ts2.get? k = some x := by
          rw [List.get?_eq_get (show k < ts2.length by omega)]; exact ⟨_, rfl⟩
        rw [ht1, ht2, ih k nn t1' hnn ht1 t2'' (hf2 k nn t2'' hnn ht2)]
      · rw [List.get?_eq_none.2 (by omega), List.get?_eq_none.2 (by omega)]
    | var _ h2a => rw [h1] at h2a; exact ProofHash.noConfusion (Option.some.inj h2a)
    | ref _ _ _ h2a _ _ => rw [h1] at h2a; exact ProofHash.noConfusion (Option.some.inj h2a)
    | dum _ _ _ h2a => rw [h1] at h2a; exact ProofHash.noConfusion (Option.some.inj h2a)

/-- Arena extension: entries present in `de` keep their hash and deps in
`de2` (the API only appends entries and flips sharing flags). -/
def Ext (de de2 : Dedup) : Prop :=
  de.vec.length ≤ de2.vec.length ∧
  ∀ i, i < de.vec.length →
    hashAt de2.vec i = hashAt de.vec i ∧ depsAt de2.vec i = depsAt de.vec i

theorem Ext.refl (de : Dedup) : Ext de de := ⟨le_rfl, fun _ _ => ⟨rfl, rfl⟩⟩

theorem Ext.trans {d1 d2 d3 : Dedup} (h1 : Ext d1 d2) (h2 : Ext d2 d3) :
    Ext d1 d3 := by
  refine ⟨h1.1.trans h2.1, fun i hi => ?_⟩
  obtain ⟨ha, hb⟩ := h1.2 i hi
  obtain ⟨hc, hd⟩ := h2.2 i (lt_of_lt_of_le hi h1.1)
  exact ⟨hc.trans ha, hd.trans hb⟩

theorem markShared_length (vec : List (ProofHash × Bool × Nat)) (n : Nat) :
    (markShared vec n).length = vec.length := by
  unfold markShared
  rcases h : vec.get? n with _ | ⟨a, b, c⟩
  · rfl
  · exact List.length_set vec n _

theorem markShared_hashAt (vec : List (ProofHash × Bool × Nat)) (n i : Nat) :
    hashAt (markShared vec n) i = hashAt vec i := by
  unfold markShared
  rcases h : vec.get? n with _ | ⟨a, b, c⟩
  · rfl
  · unfold hashAt
    by_cases hni : n = i
    · subst hni
      rw [List.get?_set_eq, h]
      rfl
    · rw [List.get?_set_ne _ _ hni]

theorem markShared_depsAt (vec : List (ProofHash × Bool × Nat)) (n i : Nat) :
    depsAt (markShared vec n) i = depsAt vec i := by
  unfold markShared
  rcases h : vec.get? n with _ | ⟨a, b, c⟩
  · rfl
  · unfold depsAt
    rw [List.getD_eq_getElem?_getD, List.getD_eq_getElem?_getD]
    by_cases hni : n = i
    · subst hni
      rw [List.getElem?_set_self', ← List.get?_eq_getElem?, h]
      rfl
    · rw [List.getElem?_set_ne hni]

theorem hashAt_append (vec l : List (ProofHash × Bool × Nat)) (i : Nat)
    (hi : i < vec.length) : hashAt (vec ++ l) i = hashAt vec i := by
  unfold hashAt
  rw [List.get?_eq_getElem?, List.get?_eq_getElem?, List.getElem?_append_left hi]

theorem depsAt_append (vec l : List (ProofHash × Bool × Nat)) (i : Nat)
    (hi : i < vec.length) : depsAt (vec ++ l) i = depsAt vec i := by
  unfold depsAt
  rw [List.getD_eq_getElem?_getD, List.getD_eq_getElem?_getD,
    List.getElem?_append_left hi]

theorem reuse_ext (de : Dedup) (n : Nat) : Ext de (de.reuse n).2 := by
  refine ⟨by simp [Dedup.reuse, markShared_length], fun i hi => ?_⟩
  exact ⟨markShared_hashAt de.vec n i, markShared_depsAt de.vec n i⟩

theorem findIdx?_some_get {α : Type} (p : α → Bool) :
    ∀ (l : List α) (s n : Nat), List.findIdx? p l s = some n →
    s ≤ n ∧ ∃ x, l.get? (n - s) = some x ∧ p x = true := by
  intro l
  induction l with
  | nil => intro s n h; exact Option.noConfusion h
  | cons a l ih =>
    intro s n h
    rw [List.findIdx?_cons] at h
    by_cases hp : p a
    · rw [if_pos hp] at h
      cases h
      exact ⟨le_rfl, a, by simp, hp⟩
    · rw [if_neg hp] at h
      obtain ⟨hs, x, hx, hpx⟩ := ih (s + 1) n h
      refine ⟨by omega, x, ?_, hpx⟩
      have hss : n - s = (n - (s + 1)) + 1 := by omega
      rw [hss]
      simpa using hx

theorem findIdx?_some_get0 {α : Type} (p : α → Bool) (l : List α) (n : Nat)
    (h : l.findIdx? p = some n) : ∃ x, l.get? n = some x ∧ p x = true := by
  obtain ⟨_, x, hx, hpx⟩ := findIdx?_some_get p l 0 n h
  rw [Nat.sub_zero] at hx
  exact ⟨x, hx, hpx⟩

theorem addDirect_ext (de : Dedup) (v : ProofHash) :
    Ext de (de.addDirect v).2 := by
  rcases h : de.vec.findIdx? (fun e => decide (e.1 = v)) with _ | n
  · simp only [Dedup.addDirect, h]
    exact ⟨by simp, fun i hi => ⟨hashAt_append _ _ _ hi, depsAt_append _ _ _ hi⟩⟩
  · simp only [Dedup.addDirect, h]
    exact ⟨by simp [markShared_length], fun i hi =>
      ⟨markShared_hashAt de.vec n i, markShared_depsAt de.vec n i⟩⟩

theorem addDirect_lt (de : Dedup) (v : ProofHash) :
    (de.addDirect v).1 < (de.addDirect v).2.vec.length := by
  rcases h : de.vec.findIdx? (fun e => decide (e.1 = v)) with _ | n
  · simp only [Dedup.addDirect, h, List.length_append, List.length_cons,
      List.length_nil]
    omega
  · simp only [Dedup.addDirect, h]
    obtain ⟨x, hx, _⟩ := findIdx?_some_get0 _ de.vec n h
    have := List.get?_eq_some.1 hx
    simp only [markShared_length]
    exact this.1

theorem addDirect_hash (de : Dedup) (v : ProofHash) :
    hashAt (de.addDirect v).2.vec (de.addDirect v).1 = some v := by
  rcases h : de.vec.findIdx? (fun e => decide (e.1 = v)) with _ | n
  · simp only [Dedup.addDirect, h]
    unfold hashAt
    rw [List.get?_eq_getElem?, List.getElem?_append_right (le_refl de.vec.length)]
    simp
  · simp only [Dedup.addDirect, h]
    obtain ⟨x, hx, hpx⟩ := findIdx?_some_get0 _ de.vec n h
    have hxv : x.1 = v := by simpa using hpx
    rw [markShared_hashAt]
    unfold hashAt
    rw [hx]
    simp [hxv]

theorem addDirect_wf (de : Dedup) (v : ProofHash) (hwf : ArenaWf de)
    (hch : ∀ c ∈ v.children, c < de.vec.length) :
    ArenaWf (de.addDirect v).2 := by
  rcases h : de.vec.findIdx? (fun e => decide (e.1 = v)) with _ | n
  · simp only [Dedup.addDirect, h]
    intro k hh hk
    unfold hashAt at hk
    rw [List.get?_eq_getElem?] at hk
    by_cases hkl : k < de.vec.length
    · rw [List.getElem?_append_left hkl, ← List.get?_eq_getElem?] at hk
      exact hwf k hh hk
    · rw [List.getElem?_append_right (by omega : de.vec.length ≤ k)] at hk
      rcases Nat.lt_or_ge (k - de.vec.length) 1 with hlt | hge
      · have hk0 : k - de.vec.length = 0 := by omega
        have hkk : k = de.vec.length := by omega
        rw [hk0] at hk
        simp only [List.getElem?_cons_zero, Option.map_some'] at hk
        cases hk
        right
        intro c hc
        rw [hkk]
        exact hch c hc
      · rw [List.getElem?_eq_none (by simp; omega)] at hk
        exact Option.noConfusion hk
  · simp only [Dedup.addDirect, h]
    intro k hh hk
    rw [markShared_hashAt] at hk
    exact hwf k hh hk

theorem reuse_wf (de : Dedup) (n : Nat) (hwf : ArenaWf de) :
    ArenaWf (de.reuse n).2 := by
  intro k h hk
  unfold Dedup.reuse at hk
  simp only at hk
  rw [markShared_hashAt] at hk
  exact hwf k h hk

/-- Denotations only mention entries below the starting index (under
well-formedness), so they are stable under arena extension. -/
theorem Denotes_ext {de de2 : Dedup} (hwf : ArenaWf de) (hext : Ext de de2) :
    ∀ i t, Denotes de.vec i t → i < de.vec.length → Denotes de2.vec i t := by
  intro i t h
  induction h with
  | var i h1 =>
    intro hi
    exact Denotes.var i (((hext.2 i hi).1).trans h1)
  | ref i n t h1 hne hd ih =>
    intro hi
    have hn : n < i := by
      rcases hwf i _ h1 with heq | hch
      · exact absurd (ProofHash.ref.inj heq) hne
      · exact hch n (by simp [ProofHash.children])
    exact Denotes.ref i n t (((hext.2 i hi).1).trans h1) hne (ih (by omega))
  | dum i a s h1 =>
    intro hi
    exact Denotes.dum i a s (((hext.2 i hi).1).trans h1)
  | node i t es ts h1 hlen hf ih =>
    intro hi
    refine Denotes.node i t es ts (((hext.2 i hi).1).trans h1) hlen ?_
    intro k n t' hk ht
    have hn : n < i := by
      rcases hwf i _ h1 with heq | hch
      · exact ProofHash.noConfusion heq
      · exact hch n (by simp [ProofHash.children]; exact List.get?_mem hk)
    exact ih k n t' hk ht (by omega)

/-- The memoization invariant for `nheap` during `subst`: every recorded
index denotes the substitution of the corresponding heap reference, and
unrecorded in-range slots lie outside the domain of `σ`. -/
def MemoInv (heap : List ExprNode) (σ : Nat → Option PTree) (de : Dedup)
    (nheap : List (Option Nat)) : Prop :=
  (∀ i n, nheap.get? i = some (some n) → n < de.vec.length ∧
    ∀ t, SubstTree heap σ (ExprNode.ref i) t → Denotes de.vec n t) ∧
  (∀ i, nheap.get? i = some none → σ i = none)

theorem MemoInv_ext {heap : List ExprNode} {σ : Nat → Option PTree}
    {de de2 : Dedup} {nheap : List (Option Nat)} (hwf : ArenaWf de)
    (hext : Ext de de2) (h : MemoInv heap σ de nheap) :
    MemoInv heap σ de2 nheap := by
  refine ⟨fun i n hi => ?_, h.2⟩
  obtain ⟨hlt, hden⟩ := h.1 i n hi
  exact ⟨lt_of_lt_of_le hlt hext.1,
    fun t ht => Denotes_ext hwf hext n t (hden t ht) hlt⟩

theorem get?_set {α : Type} (l : List α) (i j : Nat) (a : α) :
    (l.set i a).get? j =
      if i = j then (if i < l.length then some a else none) else l.get? j := by
  rw [List.get?_eq_getElem?, List.get?_eq_getElem?, List.getElem?_set]

theorem get?_some_lt {α : Type} {l : List α} {k : Nat} {a : α}
    (h : l.get? k = some a) : k < l.length := by
  by_contra hcon
  rw [List.get?_eq_none.2 (by omega)] at h
  exact Option.noConfusion h

/-- Correctness of `ProofHash::subst` (run as `substL`): the substituted
indexes denote exactly the substitution-tree readings of the input
expressions, the arena is only extended and stays well formed, and the
memo table stays consistent. -/
theorem substL_correct (heap : List ExprNode) (σ : Nat → Option PTree) :
    ∀ (fuel : Nat) (es : List ExprNode) (de : Dedup) (nheap : List (Option Nat))
      (ns : List Nat) (de2 : Dedup) (nh2 : List (Option Nat)),
    substL fuel de heap nheap es = some (ns, de2, nh2) →
    ArenaWf de → MemoInv heap σ de nheap →
    Ext de de2 ∧ ArenaWf de2 ∧ MemoInv heap σ de2 nh2 ∧
    nh2.length = nheap.length ∧
    ns.length = es.length ∧
    (∀ n ∈ ns, n < de2.vec.length) ∧
    (∀ k e n, es.get? k = some e → ns.get? k = some n →
      ∀ t, SubstTree heap σ e t → Denotes de2.vec n t) := by
  intro fuel
  induction fuel with
  | zero =>
    intro es de nheap ns de2 nh2 h
    exact absurd h (by simp [substL])
  | succ fuel ih =>
    intro es de nheap ns de2 nh2 h hwf hinv
    cases es with
    | nil =>
      simp only [substL, Option.some.injEq, Prod.mk.injEq] at h
      obtain ⟨rfl, rfl, rfl⟩ := h
      refine ⟨Ext.refl de, hwf, hinv, rfl, rfl, by simp, ?_⟩
      intro k e n _ hn
      simp at hn
    | cons e rest =>
      cases e with
      | ref i =>
        simp only [substL] at h
        rcases hni : nheap.get? i with _ | nopt
        · rw [hni] at h
          exact absurd h (by simp)
        · rw [hni] at h
          cases nopt with
          | some n0 =>
            simp only [Dedup.reuse] at h
            rcases hrest : substL fuel
                { de with vec := markShared de.vec n0 } heap nheap rest with
              _ | ⟨⟨nsB, deB, nhB⟩⟩
            · rw [hrest] at h
              exact absurd h (by simp)
            · rw [hrest] at h
              simp only [Option.some.injEq, Prod.mk.injEq] at h
              obtain ⟨rfl, rfl, rfl⟩ := h
              have hextA : Ext de (de.reuse n0).2 := reuse_ext de n0
              have hwfA : ArenaWf (de.reuse n0).2 := reuse_wf de n0 hwf
              have hinvA : MemoInv heap σ (de.reuse n0).2 nheap :=
                MemoInv_ext hwf hextA hinv
              obtain ⟨hextR, hwfB, hinvB, hlenh, hlenR, hbndR, hdenR⟩ :=
                ih rest (de.reuse n0).2 nheap nsB deB nhB hrest hwfA hinvA
              obtain ⟨hn0lt, hn0den⟩ := hinv.1 i n0 hni
              have hextAB : Ext de deB := hextA.trans hextR
              refine ⟨hextAB, hwfB, hinvB, hlenh, by simp [hlenR], ?_, ?_⟩
              · intro n hn
                rcases List.mem_cons.1 hn with rfl | hn
                · exact lt_of_lt_of_le hn0lt hextAB.1
                · exact hbndR n hn
              · intro k e n hk hn t ht
                match k with
                | 0 =>
                  cases hk; cases hn
                  exact Denotes_ext hwf hextAB n0 t (hn0den t ht) hn0lt
                | k + 1 =>
                  exact hdenR k e n hk hn t ht
          | none =>
            simp only at h
            rcases hhi : heap.get? i with _ | hi
            · rw [hhi] at h
              exact absurd h (by simp)
            · rw [hhi] at h
              simp only at h
              rcases hsing : substL fuel de heap nheap [hi] with
                _ | ⟨⟨nsX, deX, nhX⟩⟩
              · rw [hsing] at h
                exact absurd h (by simp)
              · obtain ⟨hextX, hwfX, hinvX, hlenhX, hlenX, hbndX, hdenX⟩ :=
                  ih [hi] de nheap nsX deX nhX hsing hwf hinv
                obtain ⟨nX, rfl⟩ : ∃ a, nsX = [a] := by
                  match nsX, hlenX with
                  | [a], _ => exact ⟨a, rfl⟩
                rw [hsing] at h
                simp only at h
                have hσi : σ i = none := hinv.2 i hni
                have hnXlt : nX < deX.vec.length := hbndX nX (by simp)
                have hnXden : ∀ t, SubstTree heap σ (ExprNode.ref i) t →
                    Denotes deX.vec nX t := by
                  intro t ht
                  cases ht with
                  | sub _ _ hs => rw [hσi] at hs; exact Option.noConfusion hs
                  | heapRef _ e2 _ _ hh hs =>
                    rw [hhi] at hh
                    cases hh
                    exact hdenX 0 hi nX rfl rfl t hs
                have hinvA : MemoInv heap σ deX (nhX.set i (some nX)) := by
                  refine ⟨fun i2 n2 hi2 => ?_, fun i2 hi2 => ?_⟩
                  · rw [get?_set] at hi2
                    by_cases hii : i = i2
                    · subst hii
                      rw [if_pos rfl] at hi2
                      by_cases hir : i < nhX.length
                      · rw [if_pos hir] at hi2
                        cases hi2
                        exact ⟨hnXlt, hnXden⟩
                      · rw [if_neg hir] at hi2
                        exact Option.noConfusion hi2
                    · rw [if_neg hii] at hi2
                      exact hinvX.1 i2 n2 hi2
                  · rw [get?_set] at hi2
                    by_cases hii : i = i2
                    · subst hii
                      rw [if_pos rfl] at hi2
                      by_cases hir : i < nhX.length
                      · rw [if_pos hir] at hi2
                        exact Option.noConfusion (Option.some.inj hi2)
                      · rw [if_neg hir] at hi2
                        exact Option.noConfusion hi2
                    · rw [if_neg hii] at hi2
                      exact hinvX.2 i2 hi2
                rcases hrest : substL fuel deX heap (nhX.set i (some nX)) rest with
                  _ | ⟨⟨nsB, deB, nhB⟩⟩
                · rw [hrest] at h
                  exact absurd h (by simp)
                · rw [hrest] at h
                  simp only [Option.some.injEq, Prod.mk.injEq] at h
                  obtain ⟨rfl, rfl, rfl⟩ := h
                  obtain ⟨hextR, hwfB, hinvB, hlenhB, hlenR, hbndR, hdenR⟩ :=
                    ih rest deX (nhX.set i (some nX)) nsB deB nhB hrest hwfX hinvA
                  have hextAB : Ext de deB := hextX.trans hextR
                  refine ⟨hextAB, hwfB, hinvB, ?_, by simp [hlenR], ?_, ?_⟩
                  · rw [hlenhB, List.length_set, hlenhX]
                  · intro n hn
                    rcases List.mem_cons.1 hn with rfl | hn
                    · exact lt_of_lt_of_le hnXlt hextR.1
                    · exact hbndR n hn
                  · intro k e n hk hn t ht
                    match k with
                    | 0 =>
                      cases hk; cases hn
                      exact Denotes_ext hwfX hextR nX t (hnXden t ht) hnXlt
                    | k + 1 =>
                      exact hdenR k e n hk hn t ht
      | dummy a s =>
        simp only [substL] at h
        exact absurd h (by simp)
      | app t es2 =>
        simp only [substL] at h
        rcases hsub : substL fuel de heap nheap es2 with _ | ⟨⟨nsY, deY, nhY⟩⟩
        · rw [hsub] at h
          exact absurd h (by simp)
        · rw [hsub] at h
          simp only at h
          obtain ⟨hextY, hwfY, hinvY, hlenhY, hlenY, hbndY, hdenY⟩ :=
            ih es2 de nheap nsY deY nhY hsub hwf hinv
          have hchY : ∀ c ∈ (ProofHash.term t nsY).children, c < deY.vec.length := by
            intro c hc
            exact hbndY c hc
          have hextA : Ext deY (deY.addDirect (ProofHash.term t nsY)).2 :=
            addDirect_ext deY (ProofHash.term t nsY)
          have hwfA : ArenaWf (deY.addDirect (ProofHash.term t nsY)).2 :=
            addDirect_wf deY (ProofHash.term t nsY) hwfY hchY
          have hinvA : MemoInv heap σ (deY.addDirect (ProofHash.term t nsY)).2 nhY :=
            MemoInv_ext hwfY hextA hinvY
          rcases hrest : substL fuel (deY.addDirect (ProofHash.term t nsY)).2
              heap nhY rest with _ | ⟨⟨nsB, deB, nhB⟩⟩
          · rw [hrest] at h
            exact absurd h (by simp)
          · rw [hrest] at h
            simp only [Option.some.injEq, Prod.mk.injEq] at h
            obtain ⟨rfl, rfl, rfl⟩ := h
            obtain ⟨hextR, hwfB, hinvB, hlenhB, hlenR, hbndR, hdenR⟩ :=
              ih rest (deY.addDirect (ProofHash.term t nsY)).2 nhY nsB deB nhB
                hrest hwfA hinvA
            have hlt : (deY.addDirect (ProofHash.term t nsY)).1 <
                (deY.addDirect (ProofHash.term t nsY)).2.vec.length :=
              addDirect_lt deY (ProofHash.term t nsY)
            have hden0 : ∀ tt, SubstTree heap σ (ExprNode.app t es2) tt →
                Denotes (deY.addDirect (ProofHash.term t nsY)).2.vec
                  (deY.addDirect (ProofHash.term t nsY)).1 tt := by
              intro tt htt
              cases htt with
              | app _ _ ts hlent hpt =>
                refine Denotes.node _ t nsY ts (addDirect_hash deY _) (by omega) ?_
                intro k n2 t2 hk ht2
                have hklt : k < es2.length := by
                  have h2 := get?_some_lt hk
                  omega
                obtain ⟨e2, he2⟩ : ∃ x, es2.get? k = some x := by
                  rw [List.get?_eq_get hklt]; exact ⟨_, rfl⟩
                have hd := hdenY k e2 n2 he2 hk t2 (hpt k e2 t2 he2 ht2)
                exact Denotes_ext hwfY hextA n2 t2 hd (hbndY n2 (List.get?_mem hk))
            refine ⟨(hextY.trans hextA).trans hextR, hwfB, hinvB,
              by rw [hlenhB, hlenhY], by simp [hlenR], ?_, ?_⟩
            · intro n hn
              rcases List.mem_cons.1 hn with rfl | hn
              · exact lt_of_lt_of_le hlt hextR.1
              · exact hbndR n hn
            · intro k e n hk hn tt htt
              match k with
              | 0 =>
                cases hk; cases hn
                exact Denotes_ext hwfA hextR _ tt (hden0 tt htt) hlt
              | k + 1 =>
                exact hdenR k e n hk hn tt htt

theorem dvLoop_nheap (de : Dedup) (tdargs : List (Option Nat × Type'))
    (ns : List Nat) :
    ∀ (rest : List (Option Nat × Type')) (i : Nat) (bvs : List Nat)
      (nheap nh : List (Option Nat)),
    dvLoop de tdargs ns rest i bvs nheap = some (Except.ok nh) →
    nh.length = nheap.length ∧
    ∀ k, (i ≤ k → k < i + rest.length →
        nh.get? k = some (some (ns.getD k 0))) ∧
      ((k < i ∨ i + rest.length ≤ k) → nh.get? k = nheap.get? k) := by
  intro rest
  induction rest with
  | nil =>
    intro i bvs nheap nh h
    simp only [dvLoop, Option.some.injEq, Except.ok.injEq] at h
    subst h
    exact ⟨rfl, fun k => ⟨fun h1 h2 => by simp at h2; omega, fun _ => rfl⟩⟩
  | cons arg rest ih =>
    intro i bvs nheap nh h
    obtain ⟨na, t⟩ := arg
    rcases hget : ns.get? i with _ | nsi
    · rw [dvLoop, hget] at h
      exact absurd h (by simp)
    · rw [dvLoop, hget] at h
      simp only at h
      by_cases hin : i < nheap.length
      · rw [if_pos hin] at h
        have hnsi : nsi = ns.getD i 0 := by
          have hlt := get?_some_lt hget
          rw [get?_eq_getD ns i hlt] at hget
          exact (Option.some.inj hget).symm
        have hmain : ∃ bvs2, dvLoop de tdargs ns rest (i + 1) bvs2
            (nheap.set i (some nsi)) = some (Except.ok nh) := by
          cases t with
          | bound s =>
            simp only at h
            by_cases hok : boundOk de ns i (depsAt de.vec nsi) = true
            · rw [if_pos hok] at h
              exact ⟨_, h⟩
            · rw [if_neg hok] at h
              exact absurd h (by simp)
          | reg s d =>
            simp only at h
            by_cases hok : regOk d bvs (depsAt de.vec nsi) = true
            · rw [if_pos hok] at h
              exact ⟨_, h⟩
            · rw [if_neg hok] at h
              exact absurd h (by simp)
        obtain ⟨bvs2, hmain⟩ := hmain
        obtain ⟨hlen, hk⟩ := ih (i + 1) bvs2 (nheap.set i (some nsi)) nh hmain
        refine ⟨by rw [hlen, List.length_set], fun k => ⟨?_, ?_⟩⟩
        · intro h1 h2
          rcases Nat.lt_or_ge k (i + 1) with hki | hki
          · have hkeq : k = i := by omega
            subst hkeq
            rw [(hk k).2 (Or.inl (by omega)), get?_set, if_pos rfl, if_pos hin,
              hnsi]
          · refine (hk k).1 hki ?_
            simp only [List.length_cons] at h2
            omega
        · intro h1
          have hne : ¬ i = k := by
            rcases h1 with h1 | h1
            · omega
            · simp only [List.length_cons] at h1; omega
          have hcond : k < i + 1 ∨ i + 1 + rest.length ≤ k := by
            rcases h1 with h1 | h1
            · exact Or.inl (by omega)
            · simp only [List.length_cons] at h1
              exact Or.inr (by omega)
          rw [(hk k).2 hcond, get?_set, if_neg hne]
      · rw [if_neg hin] at h
        exact absurd h (by simp)

/-- Modelled from the spec: the refine engine (`elab/refine.rs`, which is
not under `src/`) elaborates a theorem application to exactly
`thm.args.len() + thm.hyps.len()` arguments, the substitution for the
formal arguments followed by the hypothesis subproofs (spec sections 3
and 4.G: extra arguments go to the `refine-extra-args` hook and missing
ones become metavariables, so the compacter receives exactly this arity). -/
def ElaboratedApp (td : Thm) (ns : List Nat) : Prop :=
  ns.length = td.args.length + td.hyps.length

/-- C2: every `Thm{thm, args, res}` node built by the proof compacter for an
elaborated application has `args = ns` of length exactly
`thm.args.len() + thm.hyps.len()` (arity of the elaborated application,
modelled from the spec), and `res` denotes exactly the conclusion of the
theorem with the first `thm.args.len()` entries of `args` substituted for
the formal arguments: any substitution-tree reading of `td.ret` under the
argument denotations `σT` is the (unique) denotation of `res` in the
extended arena. -/
theorem thm_node_spec (fuel : Nat) (de : Dedup) (td : Thm) (tid : Nat)
    (ns : List Nat) (σT : List PTree) (node : ProofHash) (de2 : Dedup)
    (hwf : ArenaWf de)
    (happ : ElaboratedApp td ns)
    (hσlen : σT.length = td.args.length)
    (hσ : ∀ k t, σT.get? k = some t → Denotes de.vec (ns.getD k 0) t)
    (hbnd : ∀ k, k < td.args.length → ns.getD k 0 < de.vec.length)
    (hres : thmApp fuel de td tid ns = some (Except.ok (node, de2))) :
    ∃ rhs, node = ProofHash.thm tid ns rhs ∧
      ns.length = td.args.length + td.hyps.length ∧
      (∀ t, SubstTree td.heap (fun k => σT.get? k) td.ret t →
        Denotes de2.vec rhs t) ∧
      (∀ t t2, Denotes de2.vec rhs t → Denotes de2.vec rhs t2 → t = t2) := by
  unfold thmApp at hres
  rcases hdv : dvLoop de td.args ns td.args 0 []
      (List.replicate td.heap.length none) with _ | r
  · rw [hdv] at hres
    exact absurd hres (by simp)
  · rw [hdv] at hres
    cases r with
    | error e => exact absurd hres (by simp)
    | ok nheap1 =>
      simp only at hres
      rcases hsub : subst fuel de td.heap nheap1 td.ret with _ | ⟨⟨rhs, de2x, nh2⟩⟩
      · rw [hsub] at hres
        exact absurd hres (by simp)
      · rw [hsub] at hres
        simp only [Option.some.injEq, Except.ok.injEq, Prod.mk.injEq] at hres
        obtain ⟨rfl, rfl⟩ := hres
        obtain ⟨hlen1, hwin⟩ := dvLoop_nheap de td.args ns td.args 0 []
          (List.replicate td.heap.length none) nheap1 hdv
        have hinv : MemoInv td.heap (fun k => σT.get? k) de nheap1 := by
          constructor
          · intro k n hk
            have hkwin : k < td.args.length := by
              by_contra hcon
              rw [(hwin k).2 (Or.inr (by omega))] at hk
              rcases Nat.lt_or_ge k td.heap.length with hkh | hkh
              · rw [List.get?_eq_getElem?, List.getElem?_replicate,
                  if_pos hkh] at hk
                exact Option.noConfusion (Option.some.inj hk)
              · rw [List.get?_eq_none.2 (by simp; omega)] at hk
                exact Option.noConfusion hk
            rw [(hwin k).1 (by omega) (by omega)] at hk
            obtain rfl := Option.some.inj (Option.some.inj hk)
            refine ⟨hbnd k hkwin, fun t ht => ?_⟩
            cases ht with
            | sub _ _ hs => exact hσ k t hs
            | heapRef _ e2 _ hnone hh hs =>
              exfalso
              obtain ⟨x, hx⟩ : ∃ x, σT.get? k = some x := by
                rw [List.get?_eq_get (show k < σT.length by omega)]
                exact ⟨_, rfl⟩
              rw [hx] at hnone
              exact Option.noConfusion hnone
          · intro k hk
            have hkwin : ¬ k < td.args.length := by
              intro hcon
              rw [(hwin k).1 (by omega) (by omega)] at hk
              exact Option.noConfusion (Option.some.inj hk)
            exact List.get?_eq_none.2 (by omega)
        unfold subst at hsub
        rcases hsL : substL fuel de td.heap nheap1 [td.ret] with _ | ⟨⟨nsX, deX, nhX⟩⟩
        · rw [hsL] at hsub
          exact absurd hsub (by simp)
        · obtain ⟨hextX, hwfX, hinvX, hlenhX, hlenX, hbndX, hdenX⟩ :=
            substL_correct td.heap (fun k => σT.get? k) fuel [td.ret] de nheap1
              nsX deX nhX hsL hwf hinv
          obtain ⟨nX, rfl⟩ : ∃ a, nsX = [a] := by
            match nsX, hlenX with
            | [a], _ => exact ⟨a, rfl⟩
          rw [hsL] at hsub
          simp only [Option.some.injEq, Prod.mk.injEq] at hsub
          obtain ⟨rfl, rfl, rfl⟩ := hsub
          refine ⟨nX, rfl, happ, ?_, ?_⟩
          · intro t ht
            exact hdenX 0 td.ret nX rfl rfl t ht
          · intro t t2 h1 h2
            exact Denotes_unique deX.vec nX t h1 t2 h2

/-- The arena resulting from the concrete application in the C2 witness:
the two seed entries of `cDe` with their sharing flags (already) set. -/
def cDe2 : Dedup :=
  { vec := [(ProofHash.ref 0, true, 1), (ProofHash.ref 1, true, 0)], bv := 2 }

/-- Witness for `thm_node_spec` at a concrete input: applying `cTd` to its
two formal variables (`ns = [0, 1]`, a legal arity since `cTd` has two
binders and no hypotheses) yields the node `Thm 7 [0, 1] 1`, whose result
entry 1 denotes the substituted conclusion, the variable at position 1. -/
theorem thm_node_spec_witness :
    ∃ rhs, ProofHash.thm 7 [0, 1] 1 = ProofHash.thm 7 [0, 1] rhs ∧
      ([0, 1] : List Nat).length = cTd.args.length + cTd.hyps.length ∧
      (∀ t, SubstTree cTd.heap
        (fun k => [PTree.var 0, PTree.var 1].get? k) cTd.ret t →
        Denotes cDe2.vec rhs t) ∧
      (∀ t t2, Denotes cDe2.vec rhs t → Denotes cDe2.vec rhs t2 → t = t2) := by
  have hwf : ArenaWf cDe := by
    intro k h hk
    match k with
    | 0 => cases hk; exact Or.inl rfl
    | 1 => cases hk; exact Or.inl rfl
    | k + 2 => exact Option.noConfusion hk
  have hσ : ∀ k t, ([PTree.var 0, PTree.var 1].get? k) = some t →
      Denotes cDe.vec (([0, 1] : List Nat).getD k 0) t := by
    intro k t hkt
    match k with
    | 0 => cases hkt; exact Denotes.var 0 rfl
    | 1 => cases hkt; exact Denotes.var 1 rfl
    | k + 2 => exact Option.noConfusion hkt
  have hbnd : ∀ k, k < cTd.args.length →
      ([0, 1] : List Nat).getD k 0 < cDe.vec.length := by
    intro k hk
    match k with
    | 0 => decide
    | 1 => decide
    | k + 2 =>
      exfalso
      have hlt : cTd.args.length = 2 := by decide
      omega
  have happ : ElaboratedApp cTd [0, 1] := by
    unfold ElaboratedApp
    decide
  exact thm_node_spec 9 cDe cTd 7 [0, 1] [PTree.var 0, PTree.var 1]
    (ProofHash.thm 7 [0, 1] 1) cDe2 hwf happ (by decide) hσ hbnd rfl

/-! ## C5: the dependency bitsets stored by the arena -/

/-- An API operation on a `Dedup` arena: `add_direct` with an arbitrary
hash node, or `reuse` of an index. `add` records a pointer-cache entry and
then behaves like `add_direct`; a `dedup` call either behaves like `reuse`
(pointer-cache hit) or ends in `add_direct`/`reuse` calls, so arbitrary
interleavings of these two operations cover every arena the API builds. -/
inductive DedupOp where
  | addD (v : ProofHash)
  | reuseO (n : Nat)

/-- Run a sequence of API operations. -/
def runOps : Dedup → List DedupOp → Dedup
  | de, [] => de
  | de, DedupOp.addD v :: ops => runOps (de.addDirect v).2 ops
  | de, DedupOp.reuseO n :: ops => runOps (de.reuse n).2 ops

/-- Validity of an operation sequence: every inserted hash mentions only
already-allocated indexes (the API hands out indexes, so client hash nodes
are built from previous results; indexing out of range would panic in
Rust). -/
def OpsValid : Dedup → List DedupOp → Prop
  | _, [] => True
  | de, DedupOp.addD v :: ops =>
    (∀ c ∈ v.children, c < de.vec.length) ∧ OpsValid (de.addDirect v).2 ops
  | de, DedupOp.reuseO n :: ops => OpsValid (de.reuse n).2 ops

/-- The number of bound binders in an argument list. -/
def numBound : List (Option Nat × Type') → Nat
  | [] => 0
  | (_, Type'.bound _) :: rest => numBound rest + 1
  | (_, Type'.reg _ _) :: rest => numBound rest

/-- The number of bound binders before position `i`. -/
def boundBefore : List (Option Nat × Type') → Nat → Nat
  | _, 0 => 0
  | [], _ + 1 => 0
  | (_, Type'.bound _) :: rest, i + 1 => boundBefore rest i + 1
  | (_, Type'.reg _ _) :: rest, i + 1 => boundBefore rest i

/-- Whether a hash node is a dummy variable. -/
def isDummy : ProofHash → Bool
  | ProofHash.dummy _ _ => true
  | _ => false

/-- The number of dummy entries among the first `k` arena entries. -/
def dummiesBefore (vec : List (ProofHash × Bool × Nat)) (k : Nat) : Nat :=
  (((vec.map (fun e => e.1)).take k).filter isDummy).length

/-- The specified dependency bitset of entry `k` holding hash `h`
(the claim, case by case): a `Ref` yields the deps of the referenced
entry, a `Dummy` the fresh bit for its dummy ordinal, a `Term` the union
of its child deps, and every other proof or conversion node 0. -/
def depsSpec (vec : List (ProofHash × Bool × Nat))
    (args : List (Option Nat × Type')) (k : Nat) : ProofHash → Nat
  | ProofHash.ref n => depsAt vec n
  | ProofHash.dummy _ _ => 2 ^ (numBound args + dummiesBefore vec k)
  | ProofHash.term _ es => es.foldl (fun a i => a ||| depsAt vec i) 0
  | _ => 0

/-- The specified dependency bitset of seed entry `i` (the claim: the
singleton bit for a bound argument, the declared deps for a regular one). -/
def seedDeps (args : List (Option Nat × Type')) (i : Nat) : Nat :=
  match args.get? i with
  | some (_, Type'.bound _) => 2 ^ boundBefore args i
  | some (_, Type'.reg _ d) => d
  | none => 0

theorem newEntries_spec :
    ∀ (args : List (Option Nat × Type')) (i0 bv0 : Nat),
    (newEntries args i0 bv0).1.length = args.length ∧
    (newEntries args i0 bv0).2 = bv0 * 2 ^ numBound args ∧
    (∀ j, j < args.length → (newEntries args i0 bv0).1.get? j =
      some (ProofHash.ref (i0 + j), true,
        match (args.get? j).map Prod.snd with
        | some (Type'.bound _) => bv0 * 2 ^ boundBefore args j
        | some (Type'.reg _ d) => d
        | none => 0)) := by
  intro args
  induction args with
  | nil =>
    intro i0 bv0
    refine ⟨rfl, by simp [newEntries, numBound], ?_⟩
    intro j hj
    simp at hj
  | cons a rest ih =>
    intro i0 bv0
    obtain ⟨na, t⟩ := a
    cases t with
    | bound s =>
      obtain ⟨ih1, ih2, ih3⟩ := ih (i0 + 1) (bv0 * 2)
      refine ⟨by simp [newEntries, ih1], ?_, ?_⟩
      · simp only [newEntries, numBound, ih2]
        ring
      · intro j hj
        match j with
        | 0 =>
          simp [newEntries, boundBefore]
        | j + 1 =>
          simp only [newEntries, List.get?_cons_succ, List.length_cons] at hj ⊢
          rw [ih3 j (by omega)]
          have hbb : boundBefore ((na, Type'.bound s) :: rest) (j + 1) =
              boundBefore rest j + 1 := rfl
          rcases hg : (rest.get? j).map Prod.snd with _ | tj
          · simp only [hg]
            have : i0 + 1 + j = i0 + (j + 1) := by omega
            rw [this]
          · cases tj with
            | bound s2 =>
              simp only [hg, hbb]
              have : i0 + 1 + j = i0 + (j + 1) := by omega
              rw [this]
              have hpow : bv0 * 2 * 2 ^ boundBefore rest j =
                  bv0 * 2 ^ (boundBefore rest j + 1) := by ring
              rw [hpow]
            | reg s2 d =>
              simp only [hg]
              have : i0 + 1 + j = i0 + (j + 1) := by omega
              rw [this]
    | reg s d =>
      obtain ⟨ih1, ih2, ih3⟩ := ih (i0 + 1) bv0
      refine ⟨by simp [newEntries, ih1], ?_, ?_⟩
      · simp only [newEntries, numBound, ih2]
      · intro j hj
        match j with
        | 0 =>
          simp [newEntries, boundBefore]
        | j + 1 =>
          simp only [newEntries, List.get?_cons_succ, List.length_cons] at hj ⊢
          rw [ih3 j (by omega)]
          have hbb : boundBefore ((na, Type'.reg s d) :: rest) (j + 1) =
              boundBefore rest j := rfl
          rcases hg : (rest.get? j).map Prod.snd with _ | tj
          · simp only [hg]
            have : i0 + 1 + j = i0 + (j + 1) := by omega
            rw [this]
          · cases tj with
            | bound s2 =>
              simp only [hg, hbb]
              have : i0 + 1 + j = i0 + (j + 1) := by omega
              rw [this]
            | reg s2 d2 =>
              simp only [hg]
              have : i0 + 1 + j = i0 + (j + 1) := by omega
              rw [this]

theorem markShared_hashes (vec : List (ProofHash × Bool × Nat)) (n : Nat) :
    (markShared vec n).map (fun e => e.1) = vec.map (fun e => e.1) := by
  apply List.ext_get?
  intro j
  rw [List.get?_map, List.get?_map]
  exact markShared_hashAt vec n j

theorem dummiesBefore_markShared (vec : List (ProofHash × Bool × Nat))
    (n k : Nat) : dummiesBefore (markShared vec n) k = dummiesBefore vec k := by
  unfold dummiesBefore
  rw [markShared_hashes]

theorem dummiesBefore_append (vec : List (ProofHash × Bool × Nat))
    (x : ProofHash × Bool × Nat) (k : Nat) (hk : k ≤ vec.length) :
    dummiesBefore (vec ++ [x]) k = dummiesBefore vec k := by
  unfold dummiesBefore
  rw [List.map_append, List.take_append_of_le_length (by simpa using hk)]

theorem dummiesBefore_snoc (vec : List (ProofHash × Bool × Nat))
    (x : ProofHash × Bool × Nat) :
    dummiesBefore (vec ++ [x]) (vec.length + 1) =
      dummiesBefore vec vec.length + (if isDummy x.1 then 1 else 0) := by
  unfold dummiesBefore
  rw [List.map_append]
  rw [List.take_of_length_le (by simp), List.take_of_length_le (by simp)]
  rw [List.filter_append, List.length_append]
  simp only [List.filter, List.map]
  by_cases hd : isDummy x.1
  · rw [if_pos hd]
    simp [hd]
  · rw [if_neg hd]
    simp [hd]

theorem foldl_or_congr (f g : Nat → Nat) :
    ∀ (es : List Nat) (a : Nat), (∀ i ∈ es, f i = g i) →
    es.foldl (fun a i => a ||| f i) a = es.foldl (fun a i => a ||| g i) a := by
  intro es
  induction es with
  | nil => intro a _; rfl
  | cons e es ih =>
    intro a h
    simp only [List.foldl_cons]
    rw [h e (by simp), ih _ (fun i hi => h i (by simp [hi]))]

theorem depsSpec_stable (vec vec2 : List (ProofHash × Bool × Nat))
    (args : List (Option Nat × Type')) (k : Nat) (h : ProofHash)
    (hch : ∀ c ∈ h.children, depsAt vec2 c = depsAt vec c)
    (hdum : dummiesBefore vec2 k = dummiesBefore vec k) :
    depsSpec vec2 args k h = depsSpec vec args k h := by
  cases h with
  | ref n => exact hch n (by simp [ProofHash.children])
  | dummy a s => simp only [depsSpec, hdum]
  | term t es =>
    simp only [depsSpec]
    exact foldl_or_congr _ _ es 0 (fun i hi => hch i (by simpa [ProofHash.children]))
  | hyp i e => rfl
  | thm t es r => rfl
  | conv a b c => rfl
  | refl e => rfl
  | sym c => rfl
  | cong t es => rfl
  | unfoldH t es l m c => rfl

/-- The invariant maintained by the `Dedup` API on the stored dependency
bitsets: the seed entries carry the claimed seed deps, every later entry
carries its `depsSpec` value, every entry mentions only allocated
indexes, and `bv` is the next fresh dummy bit. -/
def DepsInv (args : List (Option Nat × Type')) (de : Dedup) : Prop :=
  args.length ≤ de.vec.length ∧
  (∀ i, i < args.length → hashAt de.vec i = some (ProofHash.ref i) ∧
    depsAt de.vec i = seedDeps args i) ∧
  (∀ k h, hashAt de.vec k = some h → ∀ c ∈ h.children, c < de.vec.length) ∧
  (∀ k h, args.length ≤ k → hashAt de.vec k = some h →
    depsAt de.vec k = depsSpec de.vec args k h) ∧
  de.bv = 2 ^ (numBound args + dummiesBefore de.vec de.vec.length)

theorem DepsInv_new (args : List (Option Nat × Type')) :
    DepsInv args (Dedup.new args) := by
  obtain ⟨h1, h2, h3⟩ := newEntries_spec args 0 1
  have hlen : (Dedup.new args).vec.length = args.length := h1
  have hseed : ∀ i, i < args.length →
      hashAt (Dedup.new args).vec i = some (ProofHash.ref i) ∧
      depsAt (Dedup.new args).vec i = seedDeps args i := by
    intro i hi
    have hg := h3 i hi
    constructor
    · unfold hashAt
      show (((newEntries args 0 1).1.get? i).map (fun e => e.1)) = _
      rw [hg]
      simp
    · unfold depsAt List.getD
      show (((newEntries args 0 1).1.get? i).getD default).2.2 = _
      rw [hg]
      unfold seedDeps
      rcases hgi : args.get? i with _ | ⟨na, t⟩
      · simp [hgi]
      · cases t with
        | bound s => simp [hgi]
        | reg s d => simp [hgi]
  have hnodummy : dummiesBefore (Dedup.new args).vec
      (Dedup.new args).vec.length = 0 := by
    unfold dummiesBefore
    rw [List.length_eq_zero]
    rw [List.filter_eq_nil]
    intro a ha
    have ha2 := List.mem_of_mem_take ha
    obtain ⟨e, he, rfl⟩ := List.mem_map.1 ha2
    obtain ⟨j, hj⟩ := List.get?_of_mem he
    have hjl : j < args.length := by
      rw [← hlen]
      exact get?_some_lt hj
    have := (hseed j hjl).1
    unfold hashAt at this
    rw [hj] at this
    have he1 : e.1 = ProofHash.ref j := Option.some.inj this
    rw [he1]
    simp [isDummy]
  refine ⟨le_of_eq hlen.symm, hseed, ?_, ?_, ?_⟩
  · intro k h hk c hc
    have hkl : k < (Dedup.new args).vec.length := by
      unfold hashAt at hk
      rcases hg : (Dedup.new args).vec.get? k with _ | e
      · rw [hg] at hk; exact Option.noConfusion hk
      · exact get?_some_lt hg
    have := (hseed k (by omega)).1
    rw [hk] at this
    obtain rfl := Option.some.inj this
    simp only [ProofHash.children, List.mem_singleton] at hc
    subst hc
    exact hkl
  · intro k h hge hk
    exfalso
    unfold hashAt at hk
    rcases hg : (Dedup.new args).vec.get? k with _ | e
    · rw [hg] at hk; exact Option.noConfusion hk
    · have := get?_some_lt hg
      omega
  · show (newEntries args 0 1).2 = _
    rw [h2, hnodummy]
    simp

theorem hashAt_snoc_self (vec : List (ProofHash × Bool × Nat))
    (x : ProofHash × Bool × Nat) : hashAt (vec ++ [x]) vec.length = some x.1 := by
  unfold hashAt
  rw [List.get?_eq_getElem?, List.getElem?_append_right (le_refl _)]
  simp

theorem depsAt_snoc_self (vec : List (ProofHash × Bool × Nat))
    (x : ProofHash × Bool × Nat) : depsAt (vec ++ [x]) vec.length = x.2.2 := by
  unfold depsAt
  rw [List.getD_eq_getElem?_getD, List.getElem?_append_right (le_refl _)]
  simp

theorem hashAt_snoc_cases (vec : List (ProofHash × Bool × Nat))
    (x : ProofHash × Bool × Nat) (k : Nat) (h : ProofHash)
    (hk : hashAt (vec ++ [x]) k = some h) :
    (k < vec.length ∧ hashAt vec k = some h) ∨ (k = vec.length ∧ h = x.1) := by
  by_cases hlt : k < vec.length
  · exact Or.inl ⟨hlt, by rw [← hashAt_append vec [x] k hlt]; exact hk⟩
  · right
    have hle : vec.length ≤ k := Nat.le_of_not_lt hlt
    unfold hashAt at hk
    rw [List.get?_eq_getElem?, List.getElem?_append_right hle] at hk
    have hk1 : k - vec.length < 1 := by
      by_contra hge
      rw [List.getElem?_eq_none (by simp; omega)] at hk
      exact Option.noConfusion hk
    have hkeq : k = vec.length := by omega
    subst hkeq
    rw [Nat.sub_self] at hk
    simp at hk
    exact ⟨rfl, hk.symm⟩

theorem DepsInv_markShared (args : List (Option Nat × Type')) (de : Dedup)
    (n : Nat) (h : DepsInv args de) :
    DepsInv args { de with vec := markShared de.vec n } := by
  obtain ⟨h1, h2, h3, h4, h5⟩ := h
  refine ⟨?_, ?_, ?_, ?_, ?_⟩
  · show args.length ≤ (markShared de.vec n).length
    rw [markShared_length]
    exact h1
  · intro i hi
    show hashAt (markShared de.vec n) i = _ ∧ depsAt (markShared de.vec n) i = _
    rw [markShared_hashAt, markShared_depsAt]
    exact h2 i hi
  · intro k hh hk c hc
    show c < (markShared de.vec n).length
    rw [markShared_length]
    have hk2 : hashAt de.vec k = some hh := by
      rw [← markShared_hashAt de.vec n k]
      exact hk
    exact h3 k hh hk2 c hc
  · intro k hh hge hk
    have hk2 : hashAt de.vec k = some hh := by
      rw [← markShared_hashAt de.vec n k]
      exact hk
    show depsAt (markShared de.vec n) k = depsSpec (markShared de.vec n) args k hh
    rw [markShared_depsAt]
    rw [h4 k hh hge hk2]
    exact (depsSpec_stable de.vec (markShared de.vec n) args k hh
      (fun c _ => markShared_depsAt de.vec n c)
      (dummiesBefore_markShared de.vec n k)).symm
  · show de.bv = 2 ^ (numBound args +
      dummiesBefore (markShared de.vec n) (markShared de.vec n).length)
    rw [markShared_length, dummiesBefore_markShared]
    exact h5

theorem DepsInv_snoc (args : List (Option Nat × Type')) (de : Dedup)
    (v : ProofHash) (hch : ∀ c ∈ v.children, c < de.vec.length)
    (h : DepsInv args de) :
    DepsInv args
      { vec := de.vec ++ [(v, false, (v.vars de.bv (fun i => depsAt de.vec i)).1)],
        bv := (v.vars de.bv (fun i => depsAt de.vec i)).2 } := by
  obtain ⟨h1, h2, h3, h4, h5⟩ := h
  have hlen2 : (de.vec ++
      [(v, false, (v.vars de.bv (fun i => depsAt de.vec i)).1)]).length =
      de.vec.length + 1 := by simp
  refine ⟨?_, ?_, ?_, ?_, ?_⟩
  · show args.length ≤ (de.vec ++ [_]).length
    rw [hlen2]
    omega
  · intro i hi
    have hil : i < de.vec.length := by omega
    constructor
    · show hashAt (de.vec ++ [_]) i = _
      rw [hashAt_append _ _ _ hil]
      exact (h2 i hi).1
    · show depsAt (de.vec ++ [_]) i = _
      rw [depsAt_append _ _ _ hil]
      exact (h2 i hi).2
  · intro k hh hk c hc
    show c < (de.vec ++ [_]).length
    rw [hlen2]
    rcases hashAt_snoc_cases de.vec _ k hh hk with ⟨hkl, hk2⟩ | ⟨hkeq, hheq⟩
    · have := h3 k hh hk2 c hc
      omega
    · subst hheq
      have := hch c hc
      omega
  · intro k hh hge hk
    rcases hashAt_snoc_cases de.vec _ k hh hk with ⟨hkl, hk2⟩ | ⟨hkeq, hheq⟩
    · show depsAt (de.vec ++ [_]) k = depsSpec (de.vec ++ [_]) args k hh
      rw [depsAt_append _ _ _ hkl]
      rw [h4 k hh hge hk2]
      refine (depsSpec_stable de.vec _ args k hh ?_ ?_).symm
      · intro c hc
        exact depsAt_append _ _ _ (h3 k hh hk2 c hc)
      · exact dummiesBefore_append _ _ _ (by omega)
    · subst hkeq
      rw [hheq]
      show depsAt (de.vec ++ [_]) de.vec.length =
        depsSpec (de.vec ++ [_]) args de.vec.length v
      rw [depsAt_snoc_self]
      cases v with
      | ref n =>
        simp only [ProofHash.vars, depsSpec]
        exact (depsAt_append _ _ _ (hch n (by simp [ProofHash.children]))).symm
      | dummy a s =>
        simp only [ProofHash.vars, depsSpec]
        rw [dummiesBefore_append _ _ _ (le_refl _)]
        exact h5
      | term t es =>
        simp only [ProofHash.vars, depsSpec]
        refine (foldl_or_congr _ _ es 0 ?_).symm
        intro i hi
        exact depsAt_append _ _ _ (hch i (by simpa [ProofHash.children]))
      | hyp i e => simp only [ProofHash.vars, depsSpec]
      | thm t es r => simp only [ProofHash.vars, depsSpec]
      | conv a b c => simp only [ProofHash.vars, depsSpec]
      | refl e => simp only [ProofHash.vars, depsSpec]
      | sym c => simp only [ProofHash.vars, depsSpec]
      | cong t es => simp only [ProofHash.vars, depsSpec]
      | unfoldH t es l m c => simp only [ProofHash.vars, depsSpec]
  · show (v.vars de.bv (fun i => depsAt de.vec i)).2 = _
    rw [hlen2, dummiesBefore_snoc]
    cases v with
    | dummy a s =>
      simp only [ProofHash.vars, isDummy, if_pos]
      rw [h5]
      rw [show numBound args + (dummiesBefore de.vec de.vec.length + 1) =
        numBound args + dummiesBefore de.vec de.vec.length + 1 from by omega,
        pow_succ]
    | ref n => simp [ProofHash.vars, isDummy, h5]
    | term t es => simp [ProofHash.vars, isDummy, h5]
    | hyp i e => simp [ProofHash.vars, isDummy, h5]
    | thm t es r => simp [ProofHash.vars, isDummy, h5]
    | conv a b c => simp [ProofHash.vars, isDummy, h5]
    | refl e => simp [ProofHash.vars, isDummy, h5]
    | sym c => simp [ProofHash.vars, isDummy, h5]
    | cong t es => simp [ProofHash.vars, isDummy, h5]
    | unfoldH t es l m c => simp [ProofHash.vars, isDummy, h5]

theorem DepsInv_addDirect (args : List (Option Nat × Type')) (de : Dedup)
    (v : ProofHash) (hch : ∀ c ∈ v.children, c < de.vec.length)
    (h : DepsInv args de) : DepsInv args (de.addDirect v).2 := by
  rcases hf : de.vec.findIdx? (fun e => decide (e.1 = v)) with _ | n
  · have he : (de.addDirect v).2 =
        { vec := de.vec ++ [(v, false, (v.vars de.bv (fun i => depsAt de.vec i)).1)],
          bv := (v.vars de.bv (fun i => depsAt de.vec i)).2 } := by
      simp only [Dedup.addDirect, hf]
    rw [he]
    exact DepsInv_snoc args de v hch h
  · have he : (de.addDirect v).2 = { de with vec := markShared de.vec n } := by
      simp only [Dedup.addDirect, hf]
    rw [he]
    exact DepsInv_markShared args de n h

theorem DepsInv_reuse (args : List (Option Nat × Type')) (de : Dedup)
    (n : Nat) (h : DepsInv args de) : DepsInv args (de.reuse n).2 := by
  have he : (de.reuse n).2 = { de with vec := markShared de.vec n } := rfl
  rw [he]
  exact DepsInv_markShared args de n h

theorem DepsInv_runOps (args : List (Option Nat × Type')) :
    ∀ (ops : List DedupOp) (de : Dedup), DepsInv args de → OpsValid de ops →
    DepsInv args (runOps de ops) := by
  intro ops
  induction ops with
  | nil => intro de h _; exact h
  | cons op ops ih =>
    intro de h hv
    cases op with
    | addD v =>
      obtain ⟨hc, hv2⟩ := hv
      exact ih _ (DepsInv_addDirect args de v hc h) hv2
    | reuseO n =>
      exact ih _ (DepsInv_reuse args de n h) hv

theorem dummiesBefore_succ (vec : List (ProofHash × Bool × Nat)) (k : Nat)
    (h : ProofHash) (hk : hashAt vec k = some h) :
    dummiesBefore vec (k + 1) =
      dummiesBefore vec k + (if isDummy h then 1 else 0) := by
  unfold dummiesBefore
  rw [List.take_succ, List.filter_append, List.length_append]
  have hm : (List.map (fun e => e.1) vec)[k]? = some h := by
    rw [← List.get?_eq_getElem?, List.get?_map]
    exact hk
  rw [hm]
  cases hdm : isDummy h
  · simp [Option.toList, List.filter, hdm]
  · simp [Option.toList, List.filter, hdm]

theorem dummiesBefore_mono (vec : List (ProofHash × Bool × Nat)) (k1 k2 : Nat)
    (h : k1 ≤ k2) : dummiesBefore vec k1 ≤ dummiesBefore vec k2 := by
  induction k2 with
  | zero =>
    have hz : k1 = 0 := by omega
    rw [hz]
  | succ n ih =>
    rcases Nat.lt_or_ge k1 (n + 1) with hlt | hge
    · have hstep : dummiesBefore vec n ≤ dummiesBefore vec (n + 1) := by
        unfold dummiesBefore
        rw [List.take_succ, List.filter_append, List.length_append]
        omega
      have := ih (by omega)
      omega
    · have hk : k1 = n + 1 := by omega
      rw [hk]

theorem boundBefore_lt_numBound :
    ∀ (args : List (Option Nat × Type')) (i : Nat) (na : Option Nat) (s : Nat),
    args.get? i = some (na, Type'.bound s) → boundBefore args i < numBound args := by
  intro args
  induction args with
  | nil => intro i na s h; simp at h
  | cons a rest ih =>
    intro i na s h
    cases i with
    | zero =>
      simp only [List.get?_cons_zero] at h
      obtain rfl := Option.some.inj h
      simp only [boundBefore, numBound]
      omega
    | succ i =>
      simp only [List.get?_cons_succ] at h
      rcases a with ⟨na2, t⟩
      cases t with
      | bound s2 =>
        have := ih i na s h
        simp only [boundBefore, numBound]
        omega
      | reg s2 d =>
        have := ih i na s h
        simp only [boundBefore, numBound]
        omega

theorem isDummy_true {h : ProofHash} (hd : isDummy h = true) :
    ∃ a s, h = ProofHash.dummy a s := by
  cases h <;> first | exact ⟨_, _, rfl⟩ | simp [isDummy] at hd

/-- C5: every index allocated in a `Dedup` arena stores the claimed
dependency bitset. The seed entries made by `Dedup::new` carry the
singleton bit for each bound argument (`bv` starting at 1 and doubling)
and the declared deps for each regular argument; every entry added later
satisfies the case analysis of `vars`: a `Ref(n)` carries the deps of
entry `n`, a `Dummy` carries a fresh power-of-two bit (unique among all
dummies and distinct from every bound argument bit), a `Term` carries the
bitwise OR of its children's deps, and every other proof or conversion
node carries 0. `ExprHash::vars` agrees with `ProofHash::vars` on the
shared constructors. -/
theorem dedup_deps_invariant (args : List (Option Nat × Type'))
    (ops : List DedupOp) (hv : OpsValid (Dedup.new args) ops) :
    (∀ i, i < args.length →
      hashAt (runOps (Dedup.new args) ops).vec i = some (ProofHash.ref i) ∧
      depsAt (runOps (Dedup.new args) ops).vec i = seedDeps args i) ∧
    (∀ k h, args.length ≤ k →
      hashAt (runOps (Dedup.new args) ops).vec k = some h →
      depsAt (runOps (Dedup.new args) ops).vec k =
        depsSpec (runOps (Dedup.new args) ops).vec args k h) ∧
    (∀ k1 k2 h1 h2, hashAt (runOps (Dedup.new args) ops).vec k1 = some h1 →
      hashAt (runOps (Dedup.new args) ops).vec k2 = some h2 →
      isDummy h1 → isDummy h2 → k1 ≠ k2 →
      depsAt (runOps (Dedup.new args) ops).vec k1 ≠
        depsAt (runOps (Dedup.new args) ops).vec k2) ∧
    (∀ j na s k h, args.get? j = some (na, Type'.bound s) →
      hashAt (runOps (Dedup.new args) ops).vec k = some h → isDummy h →
      depsAt (runOps (Dedup.new args) ops).vec k ≠ seedDeps args j) ∧
    (∀ (e : ExprHash) (bv : Nat) (deps : Nat → Nat),
      ExprHash.vars e bv deps = ProofHash.vars e.toProof bv deps) := by
  obtain ⟨h1, h2, h3, h4, h5⟩ :=
    DepsInv_runOps args ops (Dedup.new args) (DepsInv_new args) hv
  have hdum : ∀ k h,
      hashAt (runOps (Dedup.new args) ops).vec k = some h → isDummy h →
      args.length ≤ k ∧
      depsAt (runOps (Dedup.new args) ops).vec k =
        2 ^ (numBound args + dummiesBefore (runOps (Dedup.new args) ops).vec k) := by
    intro k h hk hd
    have hge : args.length ≤ k := by
      by_contra hcon
      have := (h2 k (by omega)).1
      rw [hk] at this
      obtain rfl := Option.some.inj this
      simp [isDummy] at hd
    obtain ⟨a, s, rfl⟩ := isDummy_true hd
    refine ⟨hge, ?_⟩
    rw [h4 k _ hge hk]
    rfl
  refine ⟨h2, h4, ?_, ?_, ?_⟩
  · intro k1 k2 hh1 hh2 hk1 hk2 hd1 hd2 hne
    obtain ⟨hge1, he1⟩ := hdum k1 hh1 hk1 hd1
    obtain ⟨hge2, he2⟩ := hdum k2 hh2 hk2 hd2
    rw [he1, he2]
    intro heq
    have hexp := Nat.pow_right_injective (by omega : 2 ≤ 2) heq
    rcases Nat.lt_or_gt_of_ne hne with hlt | hgt
    · have hs := dummiesBefore_succ _ k1 hh1 hk1
      rw [if_pos hd1] at hs
      have := dummiesBefore_mono (runOps (Dedup.new args) ops).vec (k1 + 1) k2
        (by omega)
      omega
    · have hs := dummiesBefore_succ _ k2 hh2 hk2
      rw [if_pos hd2] at hs
      have := dummiesBefore_mono (runOps (Dedup.new args) ops).vec (k2 + 1) k1
        (by omega)
      omega
  · intro j na s k hh hj hk hd
    obtain ⟨hge, he⟩ := hdum k hh hk hd
    rw [he]
    have hsd : seedDeps args j = 2 ^ boundBefore args j := by
      unfold seedDeps
      rw [hj]
    rw [hsd]
    intro heq
    have hexp := Nat.pow_right_injective (by omega : 2 ≤ 2) heq
    have := boundBefore_lt_numBound args j na s hj
    omega
  · intro e bv deps
    cases e <;> rfl

/-- A concrete operation sequence: intern a dummy variable, then a term
node applied to the first seed and the dummy. -/
def c5ops : List DedupOp :=
  [DedupOp.addD (ProofHash.dummy 5 0), DedupOp.addD (ProofHash.term 3 [0, 2])]

/-- Witness for C5: the invariant instantiated at a concrete binder list
and operation sequence. -/
theorem dedup_deps_invariant_witness :
    OpsValid (Dedup.new cTd.args) c5ops ∧
    ((∀ i, i < cTd.args.length →
      hashAt (runOps (Dedup.new cTd.args) c5ops).vec i = some (ProofHash.ref i) ∧
      depsAt (runOps (Dedup.new cTd.args) c5ops).vec i = seedDeps cTd.args i) ∧
    (∀ k h, cTd.args.length ≤ k →
      hashAt (runOps (Dedup.new cTd.args) c5ops).vec k = some h →
      depsAt (runOps (Dedup.new cTd.args) c5ops).vec k =
        depsSpec (runOps (Dedup.new cTd.args) c5ops).vec cTd.args k h) ∧
    (∀ k1 k2 h1 h2,
      hashAt (runOps (Dedup.new cTd.args) c5ops).vec k1 = some h1 →
      hashAt (runOps (Dedup.new cTd.args) c5ops).vec k2 = some h2 →
      isDummy h1 → isDummy h2 → k1 ≠ k2 →
      depsAt (runOps (Dedup.new cTd.args) c5ops).vec k1 ≠
        depsAt (runOps (Dedup.new cTd.args) c5ops).vec k2) ∧
    (∀ j na s k h, cTd.args.get? j = some (na, Type'.bound s) →
      hashAt (runOps (Dedup.new cTd.args) c5ops).vec k = some h → isDummy h →
      depsAt (runOps (Dedup.new cTd.args) c5ops).vec k ≠ seedDeps cTd.args j) ∧
    (∀ (e : ExprHash) (bv : Nat) (deps : Nat → Nat),
      ExprHash.vars e bv deps = ProofHash.vars e.toProof bv deps)) :=
  ⟨⟨by decide, by decide, trivial⟩,
   dedup_deps_invariant cTd.args c5ops ⟨by decide, by decide, trivial⟩⟩

/-! ## `build` and `Val` (`proof.rs` lines 264-330) -/

/-- `Val<T>` from `proof.rs` lines 270-277: the constructed value for one
arena index, either an unshared built node, a reference to the heap slot
allocated for a shared node, or an unshared value already moved away. -/
inductive Val where
  | built (node : ProofNode)
  | refN (n : Nat)
  | done
deriving Repr

/-- `Val::take` from `proof.rs` lines 293-300: a `Built` value is moved
out (leaving `Done` behind), a `Ref` is cloned as a `Ref` node, and
taking a `Done` value panics with "taking a value twice" (modelled as
`none`). -/
def Val.take : Val → Option (Val × ProofNode)
  | Val.built x => some (Val.done, x)
  | Val.refN n => some (Val.refN n, ProofNode.ref n)
  | Val.done => none

/-- `Val::take(&mut ids[i])`: take the value at slot `i`, writing the
updated slot back; an out-of-range index is an indexing panic. -/
def takeAt (ids : List Val) (i : Nat) : Option (ProofNode × List Val) :=
  match ids.get? i with
  | none => none
  | some v =>
    match v.take with
    | none => none
    | some (v2, node) => some (node, ids.set i v2)

/-- Sequential `take` over a child index list (the `ns.iter().map(...)`
collections in `ProofNode::from`). -/
def takeList (ids : List Val) : List Nat → Option (List ProofNode × List Val)
  | [] => some ([], ids)
  | i :: rest =>
    match takeAt ids i with
    | none => none
    | some (n, ids2) =>
      match takeList ids2 rest with
      | none => none
      | some (ns, ids3) => some (n :: ns, ids3)

/-- `<ProofNode as Node>::from` from `proof.rs` lines 719-744: rebuild a
node from its hash, taking each child value out of `ids`. -/
def ProofNode.fromHash (e : ProofHash) (ids : List Val) :
    Option (ProofNode × List Val) :=
  match e with
  | ProofHash.ref i => some (ProofNode.ref i, ids)
  | ProofHash.dummy a s => some (ProofNode.dummy a s, ids)
  | ProofHash.term t ns =>
    match takeList ids ns with
    | none => none
    | some (args, ids2) => some (ProofNode.term t args, ids2)
  | ProofHash.hyp i e =>
    match takeAt ids e with
    | none => none
    | some (n, ids2) => some (ProofNode.hyp i n, ids2)
  | ProofHash.thm t ns r =>
    match takeList ids ns with
    | none => none
    | some (args, ids2) =>
      match takeAt ids2 r with
      | none => none
      | some (res, ids3) => some (ProofNode.thm t args res, ids3)
  | ProofHash.conv i j k =>
    match takeAt ids i with
    | none => none
    | some (a, ids2) =>
      match takeAt ids2 j with
      | none => none
      | some (b, ids3) =>
        match takeAt ids3 k with
        | none => none
        | some (c, ids4) => some (ProofNode.conv a b c, ids4)
  | ProofHash.refl i =>
    match takeAt ids i with
    | none => none
    | some (a, ids2) => some (ProofNode.refl a, ids2)
  | ProofHash.sym i =>
    match takeAt ids i with
    | none => none
    | some (a, ids2) => some (ProofNode.sym a, ids2)
  | ProofHash.cong t ns =>
    match takeList ids ns with
    | none => none
    | some (args, ids2) => some (ProofNode.cong t args, ids2)
  | ProofHash.unfoldH t ns l m c =>
    match takeList ids ns with
    | none => none
    | some (args, ids2) =>
      match takeAt ids2 l with
      | none => none
      | some (a, ids3) =>
        match takeAt ids3 m with
        | none => none
        | some (b, ids4) =>
          match takeAt ids4 c with
          | none => none
          | some (p, ids5) => some (ProofNode.unfoldN t args a b p, ids5)

/-- The loop of `build` from `proof.rs` lines 311-329: iterate the arena
in order, reconstruct each node from the previously built values, and
place it behind a `Ref` into `heap` when the entry is shared, or
directly into `ids` otherwise. `none` is a panic. -/
def buildLoop : List (ProofHash × Bool × Nat) → List Val → List ProofNode →
    Option (List Val × List ProofNode)
  | [], ids, heap => some (ids, heap)
  | (e, b, _) :: rest, ids, heap =>
    match ProofNode.fromHash e ids with
    | none => none
    | some (node, ids2) =>
      if b then buildLoop rest (ids2 ++ [Val.refN heap.length]) (heap ++ [node])
      else buildLoop rest (ids2 ++ [Val.built node]) heap

/-- `build` from `proof.rs` lines 311-329, consuming a `Dedup`. -/
def build (de : Dedup) : Option (List Val × List ProofNode) :=
  buildLoop de.vec [] []

/-- The binder list for the C10 counterexample: one regular variable. -/
def args10 : List (Option Nat × Type') := [(some 0, Type'.reg 0 0)]

/-- The operation sequence performed by the `Unfold` branch of
`ProofHash::from` (`proof.rs` lines 660-675) on `(:unfold t ((f y)) prf)`
where the definition body does not mention its argument: dedup of the
fresh argument expression (entry 1), `add_direct` of `Term(tid, ns)` for
the unfold `lhs` (entry 2, with `ns = [1]`), dedup of the trivial
conversion proof (entry 3), and the returned `Unfold(tid, ns, lhs, l2, c)`
node (entry 4), which repeats `ns` next to `lhs`. Entry 1 is referenced
by entries 2 and 4 but never re-interned, so it is never marked shared. -/
def ops10 : List DedupOp :=
  [DedupOp.addD (ProofHash.term 5 [0]),
   DedupOp.addD (ProofHash.term 6 [1]),
   DedupOp.addD (ProofHash.refl 0),
   DedupOp.addD (ProofHash.unfoldH 6 [1] 2 0 3)]

/-- C10: refuted as stated. An arena populated only through the dedup
API (a valid `add_direct` sequence — exactly the one the `Unfold` branch
of `ProofHash::from` performs) leaves the argument entry unshared while
both the `Term` lhs node and the `Unfold` node itself consume it, so
`build` hits `Val::take` on a `Done` slot and panics with "taking a
value twice". -/
theorem build_unfold_panics :
    OpsValid (Dedup.new args10) ops10 ∧
    build (runOps (Dedup.new args10) ops10) = none := by
  constructor
  · exact ⟨by decide, by decide, by decide, by decide, trivial⟩
  · rfl

/-! ## Coercions (`environment.rs` lines 405-411 and 914-981) -/

/-- `Coe` from `environment.rs` lines 405-411: a single coercion term or
a transitive composite through a middle sort. -/
inductive Coe where
  | one (fsp : FileSpan) (t : Nat)
  | trans (c1 : Coe) (s : Nat) (c2 : Coe)
deriving DecidableEq, Repr

/-- Association-list lookup, standing in for `HashMap::get`. -/
def alGet {α : Type} : List (Nat × α) → Nat → Option α
  | [], _ => none
  | (k, v) :: rest, k2 => if k = k2 then some v else alGet rest k2

/-- Association-list update-or-append, standing in for `HashMap::insert`
on the entry API. -/
def alSet {α : Type} : List (Nat × α) → Nat → α → List (Nat × α)
  | [], k, v => [(k, v)]
  | (k2, v2) :: rest, k, v =>
    if k2 = k then (k2, v) :: rest else (k2, v2) :: alSet rest k v

/-- The parser environment fields involved in `add_coe`
(`environment.rs`): the coercion graph `coes: s1 -> s2 -> Coe`, the
provability cache `coe_prov: s -> provable sort`, and the per-term
`decl_nota` coercion flag (the token vector of `decl_nota` is never
touched by `add_coe`, so only the flag is modelled). The `HashMap`s are
association lists in insertion order. -/
structure ParserEnv where
  coes : List (Nat × List (Nat × Coe))
  coe_prov : List (Nat × Nat)
  decl_nota : List (Nat × Bool)
deriving DecidableEq, Repr

/-- `self.coes.entry(sl).or_default().try_insert(sr, c)` from
`add_coe_raw`: `none` is the occupied case (the coercion diamond
error). -/
def coesInsert (coes : List (Nat × List (Nat × Coe))) (sl sr : Nat)
    (c : Coe) : Option (List (Nat × List (Nat × Coe))) :=
  let m := (alGet coes sl).getD []
  match alGet m sr with
  | some _ => none
  | none => some (alSet coes sl (m ++ [(sr, c)]))

/-- The kind of error raised on the coercion paths. -/
inductive CoeErr where
  | cycle
  | diamond
  | diamondProv
deriving DecidableEq, Repr

/-- The `for (sl, sr, c) in todo` loop of `add_coe_raw`
(`environment.rs` lines 957-970): edges are inserted one at a time; a
self-edge is a cycle error and an occupied slot a diamond error, and in
either case the loop returns with the edges inserted so far kept. -/
def coeTodoLoop : List (Nat × Nat × Coe) → List (Nat × List (Nat × Coe)) →
    List (Nat × List (Nat × Coe)) × Option CoeErr
  | [], coes => (coes, none)
  | (sl, sr, c) :: rest, coes =>
    if sl = sr then (coes, some CoeErr.cycle)
    else
      match coesInsert coes sl sr c with
      | none => (coes, some CoeErr.diamond)
      | some coes2 => coeTodoLoop rest coes2

/-- The body of `add_coe_raw` past the idempotence check
(`environment.rs` lines 942-971): build the `todo` list (composites
through every coercion into `s1`, the new edge itself, composites
through every coercion out of `s2`) and run the insertion loop. Only
the `coes` field is written. -/
def addCoeRawCore (pe : ParserEnv) (s1 s2 : Nat) (fsp : FileSpan)
    (t : Nat) : ParserEnv × Option CoeErr :=
  let c1 := Coe.one fsp t
  let todo1 := pe.coes.filterMap (fun p =>
    (alGet p.2 s1).map (fun c => (p.1, s2, Coe.trans c s1 c1)))
  let todo2 := match alGet pe.coes s2 with
    | some m => m.map (fun p => (s1, p.1, Coe.trans c1 s2 p.2))
    | none => []
  match coeTodoLoop (todo1 ++ [(s1, s2, c1)] ++ todo2) pe.coes with
  | (coes2, err) => ({ pe with coes := coes2 }, err)

/-- `ParserEnv::add_coe_raw` from `environment.rs` lines 935-971,
including the initial idempotence check (re-adding the identical
coercion is a no-op). -/
def ParserEnv.add_coe_raw (pe : ParserEnv) (s1 s2 : Nat) (fsp : FileSpan)
    (t : Nat) : ParserEnv × Option CoeErr :=
  match (alGet pe.coes s1).bind (fun m => alGet m s2) with
  | some (Coe.one fsp2 t2) =>
    if fsp2 = fsp ∧ t = t2 then (pe, none)
    else addCoeRawCore pe s1 s2 fsp t
  | _ => addCoeRawCore pe s1 s2 fsp t

/-- The inner loop of `update_provs` for a fixed source sort `s1`:
`prov` maps each sort to its provability flag (`sorts[s2]` carries
`Modifiers::PROVABLE`, whose bit constant lives in `parser/ast` outside
the given sources, so the flag is taken as a list of booleans); a second
provable target for the same source is the diamond-to-provable error. -/
def provsInner (s1 : Nat) (prov : List Bool) :
    List (Nat × Coe) → List (Nat × Nat) → Option (List (Nat × Nat))
  | [], provs => some provs
  | (s2, _) :: rest, provs =>
    if prov.getD s2 false then
      match alGet provs s1 with
      | some _ => none
      | none => provsInner s1 prov rest (alSet provs s1 s2)
    else provsInner s1 prov rest provs

/-- The outer loop of `update_provs` (`environment.rs` lines 914-932). -/
def provsLoop (prov : List Bool) :
    List (Nat × List (Nat × Coe)) → List (Nat × Nat) →
    Option (List (Nat × Nat))
  | [], provs => some provs
  | (s1, m) :: rest, provs =>
    match provsInner s1 prov m provs with
    | none => none
    | some provs2 => provsLoop prov rest provs2

/-- `ParserEnv::add_coe` from `environment.rs` lines 975-981:
`add_coe_raw`, then `update_provs` (which assigns `coe_prov` only on
success), then the `decl_nota` coercion flag, each short-circuiting on
error. -/
def ParserEnv.add_coe (pe : ParserEnv) (prov : List Bool) (s1 s2 : Nat)
    (fsp : FileSpan) (t : Nat) : ParserEnv × Option CoeErr :=
  match pe.add_coe_raw s1 s2 fsp t with
  | (pe2, some e) => (pe2, some e)
  | (pe2, none) =>
    match provsLoop prov pe2.coes [] with
    | none => (pe2, some CoeErr.diamondProv)
    | some provs =>
      ({ pe2 with coe_prov := provs, decl_nota := alSet pe2.decl_nota t true },
       none)

/-- A parser environment with coercions `1 -> 2` and `0 -> 2` already
present. Adding `0 -> 1` first inserts the direct edge and then hits a
diamond on the composite `0 -> 2`, leaving the direct edge behind. -/
def pe0 : ParserEnv :=
  { coes := [(1, [(2, Coe.one ⟨0, (0, 1)⟩ 10)]),
             (0, [(2, Coe.one ⟨0, (2, 3)⟩ 11)])],
    coe_prov := [], decl_nota := [] }

/-- Counterexample to C3 as stated: `add_coe` fails with a coercion
diamond error, yet the `coes` map differs from its prior state (the
direct edge inserted before the failing composite persists). -/
theorem add_coe_error_mutates_coes :
    (pe0.add_coe [false, false, false] 0 1 ⟨0, (4, 5)⟩ 12).2 =
      some CoeErr.diamond ∧
    (pe0.add_coe [false, false, false] 0 1 ⟨0, (4, 5)⟩ 12).1.coes ≠
      pe0.coes := by
  decide

theorem add_coe_raw_fields (pe : ParserEnv) (s1 s2 : Nat) (fsp : FileSpan)
    (t : Nat) :
    (pe.add_coe_raw s1 s2 fsp t).1.coe_prov = pe.coe_prov ∧
    (pe.add_coe_raw s1 s2 fsp t).1.decl_nota = pe.decl_nota := by
  have hcore : (addCoeRawCore pe s1 s2 fsp t).1.coe_prov = pe.coe_prov ∧
      (addCoeRawCore pe s1 s2 fsp t).1.decl_nota = pe.decl_nota :=
    ⟨rfl, rfl⟩
  unfold ParserEnv.add_coe_raw
  rcases h : (alGet pe.coes s1).bind (fun m => alGet m s2) with _ | c
  · exact hcore
  · cases c with
    | one fsp2 t2 =>
      dsimp only
      by_cases he : fsp2 = fsp ∧ t = t2
      · rw [if_pos he]
        exact ⟨rfl, rfl⟩
      · rw [if_neg he]
        exact hcore
    | trans a s b => exact hcore

/-- C3, amended: when `add_coe` fails with a coercion cycle, coercion
diamond, or diamond-to-provable error, the `coe_prov` cache and the
`decl_nota` table are left exactly as they were (`update_provs` assigns
`coe_prov` only on success, and the `decl_nota` flag is set only after
both checks pass); the `coes` map, however, may retain the edges
inserted before the failing one, so the claim holds only for these two
fields. -/
theorem add_coe_error_env (pe : ParserEnv) (prov : List Bool) (s1 s2 : Nat)
    (fsp : FileSpan) (t : Nat) (e : CoeErr)
    (h : (pe.add_coe prov s1 s2 fsp t).2 = some e) :
    (pe.add_coe prov s1 s2 fsp t).1.coe_prov = pe.coe_prov ∧
    (pe.add_coe prov s1 s2 fsp t).1.decl_nota = pe.decl_nota := by
  have hf := add_coe_raw_fields pe s1 s2 fsp t
  unfold ParserEnv.add_coe at h ⊢
  rcases hr : pe.add_coe_raw s1 s2 fsp t with ⟨pe2, err⟩
  rw [hr] at hf h
  cases err with
  | some e2 => exact hf
  | none =>
    dsimp only at h ⊢
    rcases hp : provsLoop prov pe2.coes [] with _ | provs
    · exact hf
    · rw [hp] at h
      exact Option.noConfusion h

/-- Witness for C3 at the concrete diamond counterexample input. -/
theorem add_coe_error_env_witness :
    (pe0.add_coe [false, false, false] 0 1 ⟨0, (4, 5)⟩ 12).2 =
      some CoeErr.diamond ∧
    ((pe0.add_coe [false, false, false] 0 1 ⟨0, (4, 5)⟩ 12).1.coe_prov =
      pe0.coe_prov ∧
    (pe0.add_coe [false, false, false] 0 1 ⟨0, (4, 5)⟩ 12).1.decl_nota =
      pe0.decl_nota) :=
  ⟨by decide, add_coe_error_env pe0 [false, false, false] 0 1 ⟨0, (4, 5)⟩ 12
    CoeErr.diamond (by decide)⟩

/-! ## The lisp evaluator fragment (`eval.rs` lines 1083-1461, 215-302)

The fragment models the parts of `Evaluator::run` exercised by the stack
cap and by match continuations: `Eval`/`Ret`/`App`/`Match`/`Pattern`
states, the `App`/`App2`/`AppHead`/`Match`/`TestPattern`/`Drop`/
`MatchCont` stack frames, and `pattern_match` with `Skip`, `Atom`,
`Bool` and `Test` patterns. Spans are dropped (they never affect control
flow), the `Rc<Cell<bool>>` validity cells live in a `flags` store
indexed by allocation order (`Rc` pointer equality is index equality,
and the `Rc::try_unwrap(valid)` on the `Ret` path is modelled as always
setting the flag, which is observationally equal since a successful
unwrap destroys the last handle), and the stack grows at the head of the
list (the `Vec` top is the first element). -/

/-- The lisp `Proc` values of the fragment: a match continuation holding
its validity cell. -/
inductive ProcF where
  | matchCont (flag : Nat)
deriving DecidableEq, Repr

/-- The lisp values of the fragment. `truthy` (defined on `LispKind`
outside the given sources) is false exactly on `Bool(false)`. -/
inductive Value where
  | undef
  | bool (b : Bool)
  | atom (a : Nat)
  | proc (p : ProcF)
deriving DecidableEq, Repr

/-- `LispKind::truthy`: everything but `#f` is truthy. -/
def truthy : Value → Bool
  | Value.bool false => false
  | _ => true

mutual
/-- The `IR` fragment from `eval.rs`: constants, local references,
applications, and `match`. -/
inductive IRF where
  | const (v : Value)
  | loc (i : Nat)
  | app (f : IRF) (es : List IRF)
  | matchIR (e : IRF) (brs : List BranchF)
deriving Repr

/-- A `Branch`: pattern, number of pattern variables, whether the branch
binds a continuation, and the body. -/
inductive BranchF where
  | mk (pat : PatternF) (vars : Nat) (cont : Bool) (body : IRF)
deriving Repr

/-- The `Pattern` fragment: `Skip`, `Atom(i)` (a binder), `Bool`, and
`Test` (a pattern guarded by a lisp predicate). -/
inductive PatternF where
  | skip
  | atom (i : Nat)
  | boolP (b : Bool)
  | test (ir : IRF) (ps : List PatternF)
deriving Repr
end

def BranchF.pat : BranchF → PatternF
  | BranchF.mk p _ _ _ => p

def BranchF.vars : BranchF → Nat
  | BranchF.mk _ n _ _ => n

def BranchF.cont : BranchF → Bool
  | BranchF.mk _ _ c _ => c

def BranchF.body : BranchF → IRF
  | BranchF.mk _ _ _ e => e

/-- `PatternStack` from `eval.rs` lines 175-184 (the `Binary` frame used
by `Test` patterns). -/
inductive PatternStackF where
  | binary (or : Bool) (out : Bool) (e : Value) (ps : List PatternF)
deriving Repr

/-- `PatternState` from `eval.rs` lines 179-184. -/
inductive PatternStateF where
  | evalP (p : PatternF) (e : Value)
  | retP (b : Bool)
  | binaryS (or : Bool) (out : Bool) (e : Value) (ps : List PatternF)
deriving Repr

/-- The result of `pattern_match`: a boolean verdict with the updated
pattern variables, or a pending `Test` (`Err(TestPending)`), or fuel
exhaustion (unreachable for the fuel computed by `step`). -/
inductive PatRes where
  | ok (b : Bool) (vars : List Value)
  | pending (pstack : List PatternStackF) (vars : List Value) (e : Value)
      (ir : IRF)
  | stuck
deriving Repr

/-- `Elaborator::pattern_match` from `eval.rs` lines 215-302, restricted
to the fragment patterns, with explicit fuel. -/
def patMatch : Nat → List PatternStackF → List Value → PatternStateF → PatRes
  | 0, _, _, _ => PatRes.stuck
  | fuel + 1, pstack, vars, pst =>
    match pst with
    | PatternStateF.evalP p e =>
      match p with
      | PatternF.skip => patMatch fuel pstack vars (PatternStateF.retP true)
      | PatternF.atom i =>
        patMatch fuel pstack (vars.set i e) (PatternStateF.retP true)
      | PatternF.boolP b =>
        patMatch fuel pstack vars
          (PatternStateF.retP (decide (e = Value.bool b)))
      | PatternF.test ir ps =>
        PatRes.pending (PatternStackF.binary false false e ps :: pstack)
          vars e ir
    | PatternStateF.retP b =>
      match pstack with
      | [] => PatRes.ok b vars
      | PatternStackF.binary o u e ps :: rest =>
        if b.xor o then
          patMatch fuel rest vars (PatternStateF.binaryS o u e ps)
        else patMatch fuel rest vars (PatternStateF.retP u)
    | PatternStateF.binaryS o u e ps =>
      match ps with
      | [] => patMatch fuel pstack vars (PatternStateF.retP (!u))
      | p :: rest =>
        patMatch fuel (PatternStackF.binary o u e rest :: pstack) vars
          (PatternStateF.evalP p e)

mutual
/-- The structural size of a pattern, used to compute a sufficient fuel
for `pattern_match`. -/
def patSize : PatternF → Nat
  | PatternF.skip => 1
  | PatternF.atom _ => 1
  | PatternF.boolP _ => 1
  | PatternF.test _ ps => psSize ps + 1

def psSize : List PatternF → Nat
  | [] => 0
  | p :: rest => patSize p + 3 + psSize rest
end

/-- Fuel weight of a pattern state. -/
def stateW : PatternStateF → Nat
  | PatternStateF.evalP p _ => patSize p + 2
  | PatternStateF.retP _ => 1
  | PatternStateF.binaryS _ _ _ ps => psSize ps + 3

/-- Fuel weight of a pattern stack frame. -/
def frameW : PatternStackF → Nat
  | PatternStackF.binary _ _ _ ps => psSize ps + 3

/-- The machine states of the fragment (`State`, `eval.rs` lines
100-115): expression evaluation, value return, application with the
evaluated head and remaining arguments, branch trial, and pattern
matching. -/
inductive StateF where
  | eval (ir : IRF)
  | ret (v : Value)
  | app (f : Value) (args : List Value) (es : List IRF)
  | matchS (e : Value) (brs : List BranchF)
  | pattern (e : Value) (brs : List BranchF) (br : BranchF)
      (pstack : List PatternStackF) (vars : List Value)
      (pst : PatternStateF)
deriving Repr

/-- The stack frames of the fragment (`Stack`, `eval.rs` lines 60-98). -/
inductive Frame where
  | appF (es : List IRF)
  | app2 (f : Value) (vals : List Value) (es : List IRF)
  | appHead (e : Value)
  | matchF (brs : List BranchF)
  | testPattern (e : Value) (brs : List BranchF) (br : BranchF)
      (pstack : List PatternStackF) (vars : List Value)
  | drop (n : Nat)
  | matchCont (e : Value) (brs : List BranchF) (flag : Nat)
deriving Repr

/-- A machine configuration: the frame stack (top first), the active
state, the lisp context `ctx`, and the continuation validity cells. -/
structure Config where
  stack : List Frame
  active : StateF
  ctx : List Value
  flags : List Bool
deriving Repr

/-- The outcome of one iteration of the `run` loop. -/
inductive StepRes where
  | next (c : Config)
  | done (v : Value)
  | error (msg : String)
deriving Repr

/-- The `Proc::MatchCont` pop loop (`eval.rs` lines 1332-1348): pop
frames until the `MatchCont` frame carrying the invoked cell is found,
setting the validity cell of every popped `MatchCont` (including the
target) to false, truncating `ctx` at `Drop` frames, and failing with
"continuation has expired" if the stack runs out. -/
def contPop : List Frame → List Value → List Bool → Nat →
    Option (List Frame × List Value × List Bool × Value × List BranchF)
  | [], _, _, _ => none
  | Frame.matchCont e brs a :: rest, ctx, flags, target =>
    if a = target then some (rest, ctx, flags.set a false, e, brs)
    else contPop rest ctx (flags.set a false) target
  | Frame.drop n :: rest, ctx, flags, target =>
    contPop rest (ctx.take n) flags target
  | _ :: rest, ctx, flags, target => contPop rest ctx flags target

/-- One transition of `Evaluator::run` past the stack-cap guard
(`eval.rs` lines 1105-1461, restricted to the fragment). -/
def stepBody (c : Config) : StepRes :=
  match c.active with
  | StateF.eval ir =>
    match ir with
    | IRF.const v => StepRes.next { c with active := StateF.ret v }
    | IRF.loc i =>
      match c.ctx.get? i with
      | none => StepRes.error "context index out of range (panic)"
      | some v => StepRes.next { c with active := StateF.ret v }
    | IRF.app f es =>
      StepRes.next { c with stack := Frame.appF es :: c.stack,
                            active := StateF.eval f }
    | IRF.matchIR e brs =>
      StepRes.next { c with stack := Frame.matchF brs :: c.stack,
                            active := StateF.eval e }
  | StateF.ret v =>
    match c.stack with
    | [] => StepRes.done v
    | Frame.appF es :: rest =>
      StepRes.next { c with stack := rest, active := StateF.app v [] es }
    | Frame.app2 f vals es :: rest =>
      StepRes.next { c with stack := rest,
                            active := StateF.app f (vals ++ [v]) es }
    | Frame.appHead e :: rest =>
      StepRes.next { c with stack := rest, active := StateF.app v [e] [] }
    | Frame.matchF brs :: rest =>
      StepRes.next { c with stack := rest, active := StateF.matchS v brs }
    | Frame.testPattern e brs br pstack vars :: rest =>
      StepRes.next { c with stack := rest,
                            active := StateF.pattern e brs br pstack vars
                              (PatternStateF.retP (truthy v)) }
    | Frame.drop n :: rest =>
      StepRes.next { c with stack := rest, ctx := c.ctx.take n,
                            active := StateF.ret v }
    | Frame.matchCont _ _ a :: rest =>
      StepRes.next { c with stack := rest, flags := c.flags.set a false,
                            active := StateF.ret v }
  | StateF.app f args es =>
    match es with
    | e :: rest =>
      StepRes.next { c with stack := Frame.app2 f args rest :: c.stack,
                            active := StateF.eval e }
    | [] =>
      match f with
      | Value.proc (ProcF.matchCont a) =>
        if c.flags.getD a false = false then
          StepRes.error "continuation has expired"
        else
          match contPop c.stack c.ctx c.flags a with
          | none => StepRes.error "continuation has expired"
          | some (stk2, ctx2, flags2, e, brs) =>
            StepRes.next { stack := stk2, active := StateF.matchS e brs,
                           ctx := ctx2, flags := flags2 }
      | _ => StepRes.error "not a function, cannot apply"
  | StateF.matchS e brs =>
    match brs with
    | [] => StepRes.error "match failed"
    | br :: rest =>
      StepRes.next { c with active := StateF.pattern e rest br []
                              (List.replicate br.vars Value.undef)
                              (PatternStateF.evalP br.pat e) }
  | StateF.pattern e brs br pstack vars pst =>
    match patMatch (stateW pst + (pstack.map frameW).sum + 1) pstack vars
        pst with
    | PatRes.stuck => StepRes.error "pattern fuel exhausted"
    | PatRes.pending pstack2 vars2 e2 ir =>
      StepRes.next { c with
                     stack := Frame.drop c.ctx.length :: Frame.appHead e2 ::
                       Frame.testPattern e brs br pstack2 vars2 :: c.stack,
                     active := StateF.eval ir }
    | PatRes.ok false _ =>
      StepRes.next { c with active := StateF.matchS e brs }
    | PatRes.ok true vars2 =>
      let start := c.ctx.length
      if br.cont then
        let a := c.flags.length
        StepRes.next { stack := Frame.drop start ::
                         Frame.matchCont e brs a :: c.stack,
                       active := StateF.eval br.body,
                       ctx := (c.ctx ++ vars2) ++ [Value.proc (ProcF.matchCont a)],
                       flags := c.flags ++ [true] }
      else
        StepRes.next { c with stack := Frame.drop start :: c.stack,
                              active := StateF.eval br.body,
                              ctx := c.ctx ++ vars2 }

/-- One iteration of the `run` loop (`eval.rs` lines 1105-1107): the
stack-cap guard, then one transition. -/
def step (c : Config) : StepRes :=
  if 1024 ≤ c.stack.length then StepRes.error "stack overflow"
  else stepBody c

/-- Iterated stepping: `some` is reaching the given configuration in
exactly `n` transitions. -/
def stepN : Nat → Config → Option Config
  | 0, c => some c
  | n + 1, c =>
    match step c with
    | StepRes.next c2 => stepN n c2
    | _ => none

/-- Reachability in the fragment machine. -/
def Reaches (c c2 : Config) : Prop := ∃ n, stepN n c = some c2

theorem stepN_trans (m n : Nat) : ∀ (a b c : Config), stepN m a = some b →
    stepN n b = some c → stepN (m + n) a = some c := by
  induction m with
  | zero =>
    intro a b c h1 h2
    obtain rfl := Option.some.inj h1
    simpa using h2
  | succ m ih =>
    intro a b c h1 h2
    rw [show m + 1 + n = (m + n) + 1 from by omega]
    unfold stepN at h1 ⊢
    rcases hs : step a with c2 | v | msg
    · rw [hs] at h1
      exact ih _ _ _ h1 h2
    · rw [hs] at h1
      exact Option.noConfusion h1
    · rw [hs] at h1
      exact Option.noConfusion h1

theorem Reaches.seq {a b c : Config} (h1 : Reaches a b)
    (h2 : Reaches b c) : Reaches a c := by
  obtain ⟨m, hm⟩ := h1
  obtain ⟨n, hn⟩ := h2
  exact ⟨m + n, stepN_trans m n a b c hm hn⟩

theorem reach_step {a b : Config} (h : step a = StepRes.next b) :
    Reaches a b := by
  refine ⟨1, ?_⟩
  unfold stepN
  rw [h]
  rfl

theorem step_lt (c : Config) (h : c.stack.length < 1024) :
    step c = stepBody c := by
  unfold step
  rw [if_neg (by omega)]

/-- The nested continuation-match program: `nestedIR (k+1)` is a `match`
on `#t` with a single always-succeeding `Skip` branch binding a
continuation whose body is `nestedIR k`; `nestedIR 0` is a `match` whose
single branch is a `Test` pattern. -/
def nestedIR : Nat → IRF
  | 0 => IRF.matchIR (IRF.const (Value.bool true))
      [BranchF.mk (PatternF.test (IRF.const Value.undef) []) 0 false
        (IRF.const Value.undef)]
  | k + 1 => IRF.matchIR (IRF.const (Value.bool true))
      [BranchF.mk PatternF.skip 0 true (nestedIR k)]

theorem nested_level (k : Nat) (s : List Frame) (ctx : List Value)
    (flags : List Bool) (h : s.length + 1 < 1024) :
    Reaches ⟨s, StateF.eval (nestedIR (k + 1)), ctx, flags⟩
      ⟨Frame.drop ctx.length ::
          Frame.matchCont (Value.bool true) [] flags.length :: s,
        StateF.eval (nestedIR k),
        (ctx ++ []) ++ [Value.proc (ProcF.matchCont flags.length)],
        flags ++ [true]⟩ := by
  have h1 : step ⟨s, StateF.eval (nestedIR (k + 1)), ctx, flags⟩ =
      StepRes.next ⟨Frame.matchF [BranchF.mk PatternF.skip 0 true
          (nestedIR k)] :: s,
        StateF.eval (IRF.const (Value.bool true)), ctx, flags⟩ := by
    rw [step_lt _ (by show s.length < 1024; omega)]
    rfl
  have h2 : step ⟨Frame.matchF [BranchF.mk PatternF.skip 0 true
        (nestedIR k)] :: s,
      StateF.eval (IRF.const (Value.bool true)), ctx, flags⟩ =
      StepRes.next ⟨Frame.matchF [BranchF.mk PatternF.skip 0 true
          (nestedIR k)] :: s,
        StateF.ret (Value.bool true), ctx, flags⟩ := by
    rw [step_lt _ (by show s.length + 1 < 1024; omega)]
    rfl
  have h3 : step ⟨Frame.matchF [BranchF.mk PatternF.skip 0 true
        (nestedIR k)] :: s,
      StateF.ret (Value.bool true), ctx, flags⟩ =
      StepRes.next ⟨s, StateF.matchS (Value.bool true)
        [BranchF.mk PatternF.skip 0 true (nestedIR k)], ctx, flags⟩ := by
    rw [step_lt _ (by show s.length + 1 < 1024; omega)]
    rfl
  have h4 : step ⟨s, StateF.matchS (Value.bool true)
        [BranchF.mk PatternF.skip 0 true (nestedIR k)], ctx, flags⟩ =
      StepRes.next ⟨s, StateF.pattern (Value.bool true) []
        (BranchF.mk PatternF.skip 0 true (nestedIR k)) [] []
        (PatternStateF.evalP PatternF.skip (Value.bool true)),
        ctx, flags⟩ := by
    rw [step_lt _ (by show s.length < 1024; omega)]
    rfl
  have h5 : step ⟨s, StateF.pattern (Value.bool true) []
        (BranchF.mk PatternF.skip 0 true (nestedIR k)) [] []
        (PatternStateF.evalP PatternF.skip (Value.bool true)),
        ctx, flags⟩ =
      StepRes.next ⟨Frame.drop ctx.length ::
          Frame.matchCont (Value.bool true) [] flags.length :: s,
        StateF.eval (nestedIR k),
        (ctx ++ []) ++ [Value.proc (ProcF.matchCont flags.length)],
        flags ++ [true]⟩ := by
    rw [step_lt _ (by show s.length < 1024; omega)]
    rfl
  exact ((((reach_step h1).seq (reach_step h2)).seq
    (reach_step h3)).seq (reach_step h4)).seq (reach_step h5)

theorem nested_reaches : ∀ (k : Nat) (s : List Frame) (ctx : List Value)
    (flags : List Bool), s.length + 2 * k ≤ 1022 →
    ∃ c2 : Config,
      Reaches ⟨s, StateF.eval (nestedIR k), ctx, flags⟩ c2 ∧
      c2.active = StateF.eval (nestedIR 0) ∧
      c2.stack.length = s.length + 2 * k := by
  intro k
  induction k with
  | zero =>
    intro s ctx flags h
    exact ⟨_, ⟨0, rfl⟩, rfl, by show s.length = s.length + 2 * 0; omega⟩
  | succ k ih =>
    intro s ctx flags h
    have hlv := nested_level k s ctx flags (by omega)
    obtain ⟨c2, hr, hact, hlen⟩ := ih
      (Frame.drop ctx.length ::
        Frame.matchCont (Value.bool true) [] flags.length :: s)
      ((ctx ++ []) ++ [Value.proc (ProcF.matchCont flags.length)])
      (flags ++ [true])
      (by simp only [List.length_cons]; omega)
    refine ⟨c2, hlv.seq hr, hact, ?_⟩
    simp only [List.length_cons] at hlen
    omega

theorem nested_zero (s : List Frame) (ctx : List Value)
    (flags : List Bool) (h : s.length + 1 < 1024) :
    ∃ c2 : Config,
      Reaches ⟨s, StateF.eval (nestedIR 0), ctx, flags⟩ c2 ∧
      c2.stack.length = s.length + 3 := by
  have h1 : step ⟨s, StateF.eval (nestedIR 0), ctx, flags⟩ =
      StepRes.next ⟨Frame.matchF [BranchF.mk
          (PatternF.test (IRF.const Value.undef) []) 0 false
          (IRF.const Value.undef)] :: s,
        StateF.eval (IRF.const (Value.bool true)), ctx, flags⟩ := by
    rw [step_lt _ (by show s.length < 1024; omega)]
    rfl
  have h2 : step ⟨Frame.matchF [BranchF.mk
        (PatternF.test (IRF.const Value.undef) []) 0 false
        (IRF.const Value.undef)] :: s,
      StateF.eval (IRF.const (Value.bool true)), ctx, flags⟩ =
      StepRes.next ⟨Frame.matchF [BranchF.mk
          (PatternF.test (IRF.const Value.undef) []) 0 false
          (IRF.const Value.undef)] :: s,
        StateF.ret (Value.bool true), ctx, flags⟩ := by
    rw [step_lt _ (by show s.length + 1 < 1024; omega)]
    rfl
  have h3 : step ⟨Frame.matchF [BranchF.mk
        (PatternF.test (IRF.const Value.undef) []) 0 false
        (IRF.const Value.undef)] :: s,
      StateF.ret (Value.bool true), ctx, flags⟩ =
      StepRes.next ⟨s, StateF.matchS (Value.bool true)
        [BranchF.mk (PatternF.test (IRF.const Value.undef) []) 0 false
          (IRF.const Value.undef)], ctx, flags⟩ := by
    rw [step_lt _ (by show s.length + 1 < 1024; omega)]
    rfl
  have h4 : step ⟨s, StateF.matchS (Value.bool true)
        [BranchF.mk (PatternF.test (IRF.const Value.undef) []) 0 false
          (IRF.const Value.undef)], ctx, flags⟩ =
      StepRes.next ⟨s, StateF.pattern (Value.bool true) []
        (BranchF.mk (PatternF.test (IRF.const Value.undef) []) 0 false
          (IRF.const Value.undef)) [] []
        (PatternStateF.evalP
          (PatternF.test (IRF.const Value.undef) []) (Value.bool true)),
        ctx, flags⟩ := by
    rw [step_lt _ (by show s.length < 1024; omega)]
    rfl
  have h5 : step ⟨s, StateF.pattern (Value.bool true) []
        (BranchF.mk (PatternF.test (IRF.const Value.undef) []) 0 false
          (IRF.const Value.undef)) [] []
        (PatternStateF.evalP
          (PatternF.test (IRF.const Value.undef) []) (Value.bool true)),
        ctx, flags⟩ =
      StepRes.next ⟨Frame.drop ctx.length ::
          Frame.appHead (Value.bool true) ::
          Frame.testPattern (Value.bool true) []
            (BranchF.mk (PatternF.test (IRF.const Value.undef) []) 0 false
              (IRF.const Value.undef))
            [PatternStackF.binary false false (Value.bool true) []] [] :: s,
        StateF.eval (IRF.const Value.undef), ctx, flags⟩ := by
    rw [step_lt _ (by show s.length < 1024; omega)]
    rfl
  refine ⟨_, ((((reach_step h1).seq (reach_step h2)).seq
    (reach_step h3)).seq (reach_step h4)).seq (reach_step h5), ?_⟩
  simp only [List.length_cons]

/-- Counterexample to C8 as stated: with 511 nested continuation-bearing
matches around an innermost `Test` pattern, the machine reaches a
configuration holding 1025 stack frames (the head-of-loop guard admits a
step at 1023 frames, and the `TestPending` transition pushes three
frames past a trough of 1022). -/
theorem stack_exceeds_1024 :
    ∃ c2 : Config,
      Reaches ⟨[], StateF.eval (nestedIR 511), [], []⟩ c2 ∧
      c2.stack.length = 1025 := by
  obtain ⟨c2, hr, hact, hlen⟩ := nested_reaches 511 [] [] []
    (by simp)
  obtain ⟨st, act, cx, fl⟩ := c2
  simp only at hact hlen
  subst hact
  obtain ⟨c3, hr2, hlen3⟩ := nested_zero st cx fl (by simp at hlen; omega)
  refine ⟨c3, hr.seq hr2, ?_⟩
  simp at hlen
  omega

theorem contPop_length : ∀ (stk : List Frame) (ctx : List Value)
    (flags : List Bool) (t : Nat) (stk2 : List Frame) (ctx2 : List Value)
    (flags2 : List Bool) (e : Value) (brs : List BranchF),
    contPop stk ctx flags t = some (stk2, ctx2, flags2, e, brs) →
    stk2.length ≤ stk.length := by
  intro stk
  induction stk with
  | nil =>
    intro ctx flags t s2 c2 f2 e brs h
    exact absurd h (by simp [contPop])
  | cons f rest ih =>
    intro ctx flags t s2 c2 f2 e brs h
    cases f with
    | matchCont e0 brs0 a =>
      unfold contPop at h
      by_cases ha : a = t
      · rw [if_pos ha] at h
        have h2 := Option.some.inj h
        have h3 : rest = s2 := congrArg Prod.fst h2
        rw [← h3]
        simp only [List.length_cons]
        omega
      · rw [if_neg ha] at h
        have := ih _ _ _ _ _ _ _ _ h
        simp only [List.length_cons]
        omega
    | drop n =>
      unfold contPop at h
      have := ih _ _ _ _ _ _ _ _ h
      simp only [List.length_cons]
      omega
    | appF es =>
      unfold contPop at h
      have := ih _ _ _ _ _ _ _ _ h
      simp only [List.length_cons]
      omega
    | app2 g vals es =>
      unfold contPop at h
      have := ih _ _ _ _ _ _ _ _ h
      simp only [List.length_cons]
      omega
    | appHead e1 =>
      unfold contPop at h
      have := ih _ _ _ _ _ _ _ _ h
      simp only [List.length_cons]
      omega
    | matchF brs1 =>
      unfold contPop at h
      have := ih _ _ _ _ _ _ _ _ h
      simp only [List.length_cons]
      omega
    | testPattern e1 brs1 br1 ps1 vs1 =>
      unfold contPop at h
      have := ih _ _ _ _ _ _ _ _ h
      simp only [List.length_cons]
      omega

/-- C8, amended: the run-loop guard (`eval.rs` lines 1105-1107) turns a
stack of 1024 or more frames into the user-visible "stack overflow"
error — an error return, not a panic — before any further transition;
and any transition that does run starts below the cap and pushes at most
three frames, so the stack depth can transiently reach 1025 frames (see
the counterexample) but is rechecked at the next loop head. The claim
that the stack never grows beyond 1024 frames is false as stated. -/
theorem stack_cap (c c2 : Config) :
    (1024 ≤ c.stack.length → step c = StepRes.error "stack overflow") ∧
    (step c = StepRes.next c2 →
      c.stack.length ≤ 1023 ∧ c2.stack.length ≤ c.stack.length + 3) := by
  constructor
  · intro h
    unfold step
    rw [if_pos h]
  · intro h
    have hlt : c.stack.length < 1024 := by
      by_contra hcon
      unfold step at h
      rw [if_pos (by omega)] at h
      exact StepRes.noConfusion h
    refine ⟨by omega, ?_⟩
    rw [step_lt c hlt] at h
    obtain ⟨st, act, cx, fl⟩ := c
    simp only at hlt ⊢
    cases act with
    | eval ir =>
      cases ir with
      | const v =>
        rw [← StepRes.next.inj h]
        show st.length ≤ st.length + 3
        omega
      | loc i =>
        unfold stepBody at h
        dsimp only at h
        rcases hg : cx.get? i with _ | v
        · rw [hg] at h
          exact StepRes.noConfusion h
        · rw [hg] at h
          rw [← StepRes.next.inj h]
          show st.length ≤ st.length + 3
          omega
      | app f es =>
        rw [← StepRes.next.inj h]
        show st.length + 1 ≤ st.length + 3
        omega
      | matchIR e brs =>
        rw [← StepRes.next.inj h]
        show st.length + 1 ≤ st.length + 3
        omega
    | ret v =>
      cases st with
      | nil => exact StepRes.noConfusion h
      | cons f rest =>
        cases f with
        | appF es =>
          rw [← StepRes.next.inj h]
          show rest.length ≤ (rest.length + 1) + 3
          omega
        | app2 g vals es =>
          rw [← StepRes.next.inj h]
          show rest.length ≤ (rest.length + 1) + 3
          omega
        | appHead e =>
          rw [← StepRes.next.inj h]
          show rest.length ≤ (rest.length + 1) + 3
          omega
        | matchF brs =>
          rw [← StepRes.next.inj h]
          show rest.length ≤ (rest.length + 1) + 3
          omega
        | testPattern e brs br ps vs =>
          rw [← StepRes.next.inj h]
          show rest.length ≤ (rest.length + 1) + 3
          omega
        | drop n =>
          rw [← StepRes.next.inj h]
          show rest.length ≤ (rest.length + 1) + 3
          omega
        | matchCont e brs a =>
          rw [← StepRes.next.inj h]
          show rest.length ≤ (rest.length + 1) + 3
          omega
    | app f args es =>
      cases es with
      | cons e rest =>
        rw [← StepRes.next.inj h]
        show st.length + 1 ≤ st.length + 3
        omega
      | nil =>
        cases f with
        | undef => exact StepRes.noConfusion h
        | bool b => exact StepRes.noConfusion h
        | atom a => exact StepRes.noConfusion h
        | proc p =>
          cases p with
          | matchCont a =>
            unfold stepBody at h
            dsimp only at h
            by_cases hv : fl.getD a false = false
            · rw [if_pos hv] at h
              exact StepRes.noConfusion h
            · rw [if_neg hv] at h
              rcases hp : contPop st cx fl a with _ | ⟨s2, c2x, f2, e, brs⟩
              · rw [hp] at h
                exact StepRes.noConfusion h
              · rw [hp] at h
                rw [← StepRes.next.inj h]
                have := contPop_length st cx fl a s2 c2x f2 e brs hp
                show s2.length ≤ st.length + 3
                omega
    | matchS e brs =>
      cases brs with
      | nil => exact StepRes.noConfusion h
      | cons br rest =>
        rw [← StepRes.next.inj h]
        show st.length ≤ st.length + 3
        omega
    | pattern e brs br pstack vars pst =>
      unfold stepBody at h
      dsimp only at h
      rcases hm : patMatch (stateW pst + (pstack.map frameW).sum + 1)
          pstack vars pst with ⟨b, vars2⟩ | ⟨ps2, vs2, e2, ir⟩ | _
      · rw [hm] at h
        cases b with
        | false =>
          rw [← StepRes.next.inj h]
          show st.length ≤ st.length + 3
          omega
        | true =>
          simp only at h
          by_cases hc : br.cont = true
          · rw [if_pos hc] at h
            rw [← StepRes.next.inj h]
            show st.length + 2 ≤ st.length + 3
            omega
          · rw [if_neg hc] at h
            rw [← StepRes.next.inj h]
            show st.length + 1 ≤ st.length + 3
            omega
      · rw [hm] at h
        rw [← StepRes.next.inj h]
        show st.length + 3 ≤ st.length + 3
        omega
      · rw [hm] at h
        exact StepRes.noConfusion h

/-- Witness for C8 at concrete configurations: a configuration already
holding 1024 frames aborts with the overflow error, and a small
configuration steps within the growth bound. -/
theorem stack_cap_witness :
    step ⟨List.replicate 1024 (Frame.drop 0), StateF.ret Value.undef,
      [], []⟩ = StepRes.error "stack overflow" ∧
    (([] : List Frame).length ≤ 1023 ∧
      ([] : List Frame).length ≤ ([] : List Frame).length + 3) :=
  ⟨(stack_cap ⟨List.replicate 1024 (Frame.drop 0), StateF.ret Value.undef,
      [], []⟩ ⟨[], StateF.ret Value.undef, [], []⟩).1
    (by show (1024 : Nat) ≤ (List.replicate 1024 (Frame.drop 0)).length
        rw [List.length_replicate]),
   (stack_cap ⟨[], StateF.eval (IRF.const Value.undef), [], []⟩
      ⟨[], StateF.ret Value.undef, [], []⟩).2 rfl⟩

theorem getD_set_false (l : List Bool) (i : Nat) :
    (l.set i false).getD i false = false := by
  rw [List.getD_eq_getElem?_getD, List.getElem?_set_self']
  rcases h : l[i]? with _ | b
  · rfl
  · rfl

theorem getD_set_false_mono (l : List Bool) (a t : Nat)
    (h : l.getD t false = false) : (l.set a false).getD t false = false := by
  by_cases hat : a = t
  · subst hat
    exact getD_set_false l a
  · rw [List.getD_eq_getElem?_getD, List.getElem?_set_ne hat,
      ← List.getD_eq_getElem?_getD]
    exact h

theorem getD_append_left (l l2 : List Bool) (a : Nat) (h : a < l.length) :
    (l ++ l2).getD a false = l.getD a false := by
  rw [List.getD_eq_getElem?_getD, List.getD_eq_getElem?_getD,
    List.getElem?_append_left h]

theorem contPop_flag : ∀ (stk : List Frame) (ctx : List Value)
    (flags : List Bool) (t : Nat) (stk2 : List Frame) (ctx2 : List Value)
    (flags2 : List Bool) (e : Value) (brs : List BranchF),
    contPop stk ctx flags t = some (stk2, ctx2, flags2, e, brs) →
    flags2.getD t false = false := by
  intro stk
  induction stk with
  | nil =>
    intro ctx flags t s2 c2 f2 e brs h
    exact absurd h (by simp [contPop])
  | cons f rest ih =>
    intro ctx flags t s2 c2 f2 e brs h
    cases f with
    | matchCont e0 brs0 a =>
      unfold contPop at h
      by_cases ha : a = t
      · rw [if_pos ha] at h
        have h2 := Option.some.inj h
        have h3 : flags.set a false = f2 :=
          congrArg (fun p => p.2.2.1) h2
        rw [← h3, ha]
        exact getD_set_false flags t
      · rw [if_neg ha] at h
        exact ih _ _ _ _ _ _ _ _ h
    | drop n => exact ih _ _ _ _ _ _ _ _ h
    | appF es => exact ih _ _ _ _ _ _ _ _ h
    | app2 g vals es => exact ih _ _ _ _ _ _ _ _ h
    | appHead e1 => exact ih _ _ _ _ _ _ _ _ h
    | matchF brs1 => exact ih _ _ _ _ _ _ _ _ h
    | testPattern e1 brs1 br1 ps1 vs1 => exact ih _ _ _ _ _ _ _ _ h

theorem contPop_flag_mono : ∀ (stk : List Frame) (ctx : List Value)
    (flags : List Bool) (t : Nat) (stk2 : List Frame) (ctx2 : List Value)
    (flags2 : List Bool) (e : Value) (brs : List BranchF) (x : Nat),
    contPop stk ctx flags t = some (stk2, ctx2, flags2, e, brs) →
    flags.getD x false = false → flags2.getD x false = false := by
  intro stk
  induction stk with
  | nil =>
    intro ctx flags t s2 c2 f2 e brs x h _
    exact absurd h (by simp [contPop])
  | cons f rest ih =>
    intro ctx flags t s2 c2 f2 e brs x h hx
    cases f with
    | matchCont e0 brs0 a =>
      unfold contPop at h
      by_cases ha : a = t
      · rw [if_pos ha] at h
        have h2 := Option.some.inj h
        have h3 : flags.set a false = f2 :=
          congrArg (fun p => p.2.2.1) h2
        rw [← h3]
        exact getD_set_false_mono flags a x hx
      · rw [if_neg ha] at h
        exact ih _ _ _ _ _ _ _ _ _ h (getD_set_false_mono flags a x hx)
    | drop n => exact ih _ _ _ _ _ _ _ _ _ h hx
    | appF es => exact ih _ _ _ _ _ _ _ _ _ h hx
    | app2 g vals es => exact ih _ _ _ _ _ _ _ _ _ h hx
    | appHead e1 => exact ih _ _ _ _ _ _ _ _ _ h hx
    | matchF brs1 => exact ih _ _ _ _ _ _ _ _ _ h hx
    | testPattern e1 brs1 br1 ps1 vs1 => exact ih _ _ _ _ _ _ _ _ _ h hx

theorem contPop_flags_length : ∀ (stk : List Frame) (ctx : List Value)
    (flags : List Bool) (t : Nat) (stk2 : List Frame) (ctx2 : List Value)
    (flags2 : List Bool) (e : Value) (brs : List BranchF),
    contPop stk ctx flags t = some (stk2, ctx2, flags2, e, brs) →
    flags.length = flags2.length := by
  intro stk
  induction stk with
  | nil =>
    intro ctx flags t s2 c2 f2 e brs h
    exact absurd h (by simp [contPop])
  | cons f rest ih =>
    intro ctx flags t s2 c2 f2 e brs h
    cases f with
    | matchCont e0 brs0 a =>
      unfold contPop at h
      by_cases ha : a = t
      · rw [if_pos ha] at h
        have h2 := Option.some.inj h
        have h3 : flags.set a false = f2 :=
          congrArg (fun p => p.2.2.1) h2
        rw [← h3, List.length_set]
      · rw [if_neg ha] at h
        have := ih _ _ _ _ _ _ _ _ h
        rw [← this, List.length_set]
    | drop n => exact ih _ _ _ _ _ _ _ _ h
    | appF es => exact ih _ _ _ _ _ _ _ _ h
    | app2 g vals es => exact ih _ _ _ _ _ _ _ _ h
    | appHead e1 => exact ih _ _ _ _ _ _ _ _ h
    | matchF brs1 => exact ih _ _ _ _ _ _ _ _ h
    | testPattern e1 brs1 br1 ps1 vs1 => exact ih _ _ _ _ _ _ _ _ h

/-- C9: match continuations are one-shot. Invoking a continuation whose
validity cell is already false fails with the "continuation has expired"
error; a successful invocation leaves the invoked cell false (the pop
loop clears every popped `MatchCont` cell, the target included); a value
returning through a `MatchCont` frame (the enclosing match completing
normally) pops it and clears its cell; any single transition preserves a
cleared cell and never shrinks the cell store; hence a cleared cell is
still cleared in every subsequently reached configuration, so every
later invocation fails with the same error. -/
theorem match_cont_one_shot :
    (∀ (c : Config) (a : Nat) (args : List Value),
      c.active = StateF.app (Value.proc (ProcF.matchCont a)) args [] →
      c.stack.length ≤ 1023 →
      c.flags.getD a false = false →
      step c = StepRes.error "continuation has expired") ∧
    (∀ (c c2 : Config) (a : Nat) (args : List Value),
      c.active = StateF.app (Value.proc (ProcF.matchCont a)) args [] →
      step c = StepRes.next c2 →
      c2.flags.getD a false = false) ∧
    (∀ (c c2 : Config) (v e : Value) (brs : List BranchF) (a : Nat)
      (rest : List Frame),
      c.active = StateF.ret v →
      c.stack = Frame.matchCont e brs a :: rest →
      step c = StepRes.next c2 →
      c2.flags.getD a false = false ∧ c2.stack = rest) ∧
    (∀ (c c2 : Config) (a : Nat),
      step c = StepRes.next c2 → a < c.flags.length →
      c.flags.getD a false = false →
      c2.flags.getD a false = false ∧ c.flags.length ≤ c2.flags.length) ∧
    (∀ (n : Nat) (c c2 : Config) (a : Nat),
      stepN n c = some c2 → a < c.flags.length →
      c.flags.getD a false = false →
      c2.flags.getD a false = false) := by
  have hD : ∀ (c c2 : Config) (a : Nat),
      step c = StepRes.next c2 → a < c.flags.length →
      c.flags.getD a false = false →
      c2.flags.getD a false = false ∧ c.flags.length ≤ c2.flags.length := by
    intro c c2 a h ha hf
    have hlt : c.stack.length < 1024 := by
      by_contra hcon
      unfold step at h
      rw [if_pos (by omega)] at h
      exact StepRes.noConfusion h
    rw [step_lt c hlt] at h
    obtain ⟨st, act, cx, fl⟩ := c
    simp only at ha hf ⊢
    cases act with
    | eval ir =>
      cases ir with
      | const v =>
        rw [← StepRes.next.inj h]
        exact ⟨hf, le_refl _⟩
      | loc i =>
        unfold stepBody at h
        dsimp only at h
        rcases hg : cx.get? i with _ | v
        · rw [hg] at h
          exact StepRes.noConfusion h
        · rw [hg] at h
          rw [← StepRes.next.inj h]
          exact ⟨hf, le_refl _⟩
      | app f es =>
        rw [← StepRes.next.inj h]
        exact ⟨hf, le_refl _⟩
      | matchIR e brs =>
        rw [← StepRes.next.inj h]
        exact ⟨hf, le_refl _⟩
    | ret v =>
      cases st with
      | nil => exact StepRes.noConfusion h
      | cons f rest =>
        cases f with
        | appF es =>
          rw [← StepRes.next.inj h]
          exact ⟨hf, le_refl _⟩
        | app2 g vals es =>
          rw [← StepRes.next.inj h]
          exact ⟨hf, le_refl _⟩
        | appHead e =>
          rw [← StepRes.next.inj h]
          exact ⟨hf, le_refl _⟩
        | matchF brs =>
          rw [← StepRes.next.inj h]
          exact ⟨hf, le_refl _⟩
        | testPattern e brs br ps vs =>
          rw [← StepRes.next.inj h]
          exact ⟨hf, le_refl _⟩
        | drop n =>
          rw [← StepRes.next.inj h]
          exact ⟨hf, le_refl _⟩
        | matchCont e brs a2 =>
          rw [← StepRes.next.inj h]
          refine ⟨?_, ?_⟩
          · show (fl.set a2 false).getD a false = false
            exact getD_set_false_mono fl a2 a hf
          · show fl.length ≤ (fl.set a2 false).length
            rw [List.length_set]
    | app f args es =>
      cases es with
      | cons e rest =>
        rw [← StepRes.next.inj h]
        exact ⟨hf, le_refl _⟩
      | nil =>
        cases f with
        | undef => exact StepRes.noConfusion h
        | bool b => exact StepRes.noConfusion h
        | atom a2 => exact StepRes.noConfusion h
        | proc p =>
          cases p with
          | matchCont a2 =>
            unfold stepBody at h
            dsimp only at h
            by_cases hv : fl.getD a2 false = false
            · rw [if_pos hv] at h
              exact StepRes.noConfusion h
            · rw [if_neg hv] at h
              rcases hp : contPop st cx fl a2 with _ | ⟨s2, c2x, f2, e, brs⟩
              · rw [hp] at h
                exact StepRes.noConfusion h
              · rw [hp] at h
                rw [← StepRes.next.inj h]
                refine ⟨?_, ?_⟩
                · show f2.getD a false = false
                  exact contPop_flag_mono st cx fl a2 s2 c2x f2 e brs a hp hf
                · show fl.length ≤ f2.length
                  rw [contPop_flags_length st cx fl a2 s2 c2x f2 e brs hp]
    | matchS e brs =>
      cases brs with
      | nil => exact StepRes.noConfusion h
      | cons br rest =>
        rw [← StepRes.next.inj h]
        exact ⟨hf, le_refl _⟩
    | pattern e brs br pstack vars pst =>
      unfold stepBody at h
      dsimp only at h
      rcases hm : patMatch (stateW pst + (pstack.map frameW).sum + 1)
          pstack vars pst with ⟨b, vars2⟩ | ⟨ps2, vs2, e2, ir⟩ | _
      · rw [hm] at h
        cases b with
        | false =>
          rw [← StepRes.next.inj h]
          exact ⟨hf, le_refl _⟩
        | true =>
          simp only at h
          by_cases hc : br.cont = true
          · rw [if_pos hc] at h
            rw [← StepRes.next.inj h]
            refine ⟨?_, ?_⟩
            · show (fl ++ [true]).getD a false = false
              rw [getD_append_left fl [true] a ha]
              exact hf
            · show fl.length ≤ (fl ++ [true]).length
              simp
          · rw [if_neg hc] at h
            rw [← StepRes.next.inj h]
            exact ⟨hf, le_refl _⟩
      · rw [hm] at h
        rw [← StepRes.next.inj h]
        exact ⟨hf, le_refl _⟩
      · rw [hm] at h
        exact StepRes.noConfusion h
  refine ⟨?_, ?_, ?_, hD, ?_⟩
  · intro c a args hact hlen hf
    obtain ⟨st, act, cx, fl⟩ := c
    simp only at hact hlen hf
    subst hact
    rw [step_lt _ (by show st.length < 1024; omega)]
    unfold stepBody
    dsimp only
    rw [if_pos hf]
  · intro c c2 a args hact h
    have hlt : c.stack.length < 1024 := by
      by_contra hcon
      unfold step at h
      rw [if_pos (by omega)] at h
      exact StepRes.noConfusion h
    rw [step_lt c hlt] at h
    obtain ⟨st, act, cx, fl⟩ := c
    simp only at hact ⊢
    subst hact
    unfold stepBody at h
    dsimp only at h
    by_cases hv : fl.getD a false = false
    · rw [if_pos hv] at h
      exact StepRes.noConfusion h
    · rw [if_neg hv] at h
      rcases hp : contPop st cx fl a with _ | ⟨s2, c2x, f2, e, brs⟩
      · rw [hp] at h
        exact StepRes.noConfusion h
      · rw [hp] at h
        rw [← StepRes.next.inj h]
        show f2.getD a false = false
        exact contPop_flag st cx fl a s2 c2x f2 e brs hp
  · intro c c2 v e brs a rest hact hstk h
    have hlt : c.stack.length < 1024 := by
      by_contra hcon
      unfold step at h
      rw [if_pos (by omega)] at h
      exact StepRes.noConfusion h
    rw [step_lt c hlt] at h
    obtain ⟨st, act, cx, fl⟩ := c
    simp only at hact hstk ⊢
    subst hact
    subst hstk
    rw [← StepRes.next.inj h]
    exact ⟨getD_set_false fl a, rfl⟩
  · intro n
    induction n with
    | zero =>
      intro c c2 a h ha hf
      obtain rfl := Option.some.inj h
      exact hf
    | succ n ih =>
      intro c c2 a h ha hf
      unfold stepN at h
      rcases hs : step c with c3 | v | m
      · rw [hs] at h
        obtain ⟨hf3, hlen3⟩ := hD c c3 a hs ha hf
        exact ih c3 c2 a h (by omega) hf3
      · rw [hs] at h
        exact Option.noConfusion h
      · rw [hs] at h
        exact Option.noConfusion h

/-- Witness for C9 at concrete configurations: an expired invocation
errors; a successful invocation clears the cell; a return through a
`MatchCont` frame pops it and clears the cell; a transition preserves a
cleared cell; a run preserves a cleared cell. -/
theorem match_cont_one_shot_witness :
    step ⟨[], StateF.app (Value.proc (ProcF.matchCont 0)) [] [], [],
      [false]⟩ = StepRes.error "continuation has expired" ∧
    (⟨[], StateF.matchS Value.undef [], [], [false]⟩ : Config).flags.getD
      0 false = false ∧
    ((⟨[], StateF.ret Value.undef, [], [false]⟩ : Config).flags.getD
        0 false = false ∧
      (⟨[], StateF.ret Value.undef, [], [false]⟩ : Config).stack = []) ∧
    ((⟨[], StateF.ret Value.undef, [], [false]⟩ : Config).flags.getD
        0 false = false ∧
      (⟨[], StateF.eval (IRF.const Value.undef), [], [false]⟩ :
        Config).flags.length ≤
        (⟨[], StateF.ret Value.undef, [], [false]⟩ : Config).flags.length) ∧
    (⟨[], StateF.ret Value.undef, [], [false]⟩ : Config).flags.getD
      0 false = false :=
  ⟨match_cont_one_shot.1
      ⟨[], StateF.app (Value.proc (ProcF.matchCont 0)) [] [], [], [false]⟩
      0 [] rfl (by decide) rfl,
   match_cont_one_shot.2.1
      ⟨[Frame.matchCont Value.undef [] 0],
        StateF.app (Value.proc (ProcF.matchCont 0)) [] [], [], [true]⟩
      ⟨[], StateF.matchS Value.undef [], [], [false]⟩ 0 [] rfl rfl,
   match_cont_one_shot.2.2.1
      ⟨[Frame.matchCont Value.undef [] 0], StateF.ret Value.undef, [],
        [true]⟩
      ⟨[], StateF.ret Value.undef, [], [false]⟩ Value.undef Value.undef
      [] 0 [] rfl rfl rfl,
   match_cont_one_shot.2.2.2.1
      ⟨[], StateF.eval (IRF.const Value.undef), [], [false]⟩
      ⟨[], StateF.ret Value.undef, [], [false]⟩ 0 rfl (by decide) rfl,
   match_cont_one_shot.2.2.2.2 1
      ⟨[], StateF.eval (IRF.const Value.undef), [], [false]⟩
      ⟨[], StateF.ret Value.undef, [], [false]⟩ 0 rfl (by decide) rfl⟩

end MM0
